import Mathlib

/-!
Verification development for the autoPDFtagger repository.

Shallow embedding of the parts of the code base the checked properties
talk about:

* `AICommon` — `autoPDFtagger/ai_common.py` (`tokenize_text`, `json_guard`,
  `normalize_confidence_numbers`);
* `PDFDoc` — the confidence-gated metadata setters of
  `autoPDFtagger/PDFDocument.py`;
* `FileCache` — `autoPDFtagger/cache.py` (`get` / `set`);
* `JobMgr` — the dependency/status logic of `autoPDFtagger/job_manager.py`;
* `Combined` — the budgeting and request-assembly core of
  `analyze_combined` in `autoPDFtagger/ai_tasks.py`.

Python `dict`s are modelled as insertion-ordered association lists (keys
unique, as in Python), numbers as `ℚ`/`ℤ`/`ℕ`, fallible operations as
`Option`.
-/

/-- Lookup in an insertion-ordered association list (Python `dict.get`;
returns the value of the first matching key). -/
def alookup {κ β : Type} [DecidableEq κ] : List (κ × β) → κ → Option β
  | [], _ => none
  | (k, v) :: rest, key => if k = key then some v else alookup rest key

/-- Keyed assignment in an insertion-ordered association list (Python
`d[k] = v`): replaces the value at the first matching key, else appends. -/
def aset {κ β : Type} [DecidableEq κ] : List (κ × β) → κ → β → List (κ × β)
  | [], k, v => [(k, v)]
  | (k', v') :: rest, k, v =>
    if k' = k then (k, v) :: rest else (k', v') :: aset rest k v

/-- Keyed removal from an association list (Python `del d[k]` /
`Path.unlink`): drops the first entry with the given key. -/
def aremove {κ β : Type} [DecidableEq κ] : List (κ × β) → κ → List (κ × β)
  | [], _ => []
  | (k', v') :: rest, k => if k' = k then rest else (k', v') :: aremove rest k

namespace AICommon

/-- `ai_common.tokenize_text`: token estimate for a string.  Models the
deterministic fallback branch (`max(1, len(text)//4)`) used when the
optional `tiktoken` dependency is absent. -/
def tokenize_text (s : String) : ℕ := max 1 (s.length / 4)

/-- Index of the first occurrence of a character, with a running offset
(Python `str.find`, `None` instead of `-1`). -/
def firstIdxAux (c : Char) : List Char → ℕ → Option ℕ
  | [], _ => none
  | x :: xs, n => if x = c then some n else firstIdxAux c xs (n + 1)

/-- Index of the last occurrence of a character, with a running offset
(Python `str.rfind`, `None` instead of `-1`). -/
def lastIdxAux (c : Char) : List Char → ℕ → Option ℕ
  | [], _ => none
  | x :: xs, n =>
    match lastIdxAux c xs (n + 1) with
    | some j => some j
    | none => if x = c then some n else none

/-- Python `s.find(c)`. -/
def str_find (s : String) (c : Char) : Option ℕ := firstIdxAux c s.data 0

/-- Python `s.rfind(c)`. -/
def str_rfind (s : String) (c : Char) : Option ℕ := lastIdxAux c s.data 0

/-- Python slice `s[start:stop]` for in-range, non-negative indices. -/
def pySlice (s : String) (start stop : ℕ) : String :=
  String.mk ((s.data.drop start).take (stop - start))

/-- `ai_common.json_guard`.  The external `json.loads` success test is
abstracted as the boolean predicate `valid`; `none` models a `None`
argument.  The function is total: the source's `try/except` layers mean
it never raises. -/
def json_guard (valid : String → Bool) : Option String → String
  | none => "\x7b\x7d"
  | some s =>
    if s = "" then "\x7b\x7d"
    else if valid s then s
    else
      match str_find s '\x7b', str_rfind s '\x7d' with
      | some i, some j => if i < j then pySlice s i (j + 1) else "\x7b\x7d"
      | _, _ => "\x7b\x7d"

/-- JSON-ish values appearing in metadata dicts returned by the model:
numbers, strings, and arrays are the shapes
`normalize_confidence_numbers` distinguishes. -/
inductive JVal : Type where
  | num (q : ℚ)
  | str (s : String)
  | arr (xs : List JVal)

/-- Python `round` (one-argument): round to nearest, ties to even. -/
def pyRound (q : ℚ) : ℤ :=
  if q - ⌊q⌋ < 1 / 2 then ⌊q⌋
  else if 1 / 2 < q - ⌊q⌋ then ⌊q⌋ + 1
  else if ⌊q⌋ % 2 = 0 then ⌊q⌋ else ⌊q⌋ + 1

/-- `_clamp` inside `normalize_confidence_numbers`:
`max(0, min(10, int(round(x * 10.0))))`. -/
def clamp_conf (q : ℚ) : ℤ := max 0 (min 10 (pyRound (q * 10)))

/-- Scale one element of a `tags_confidence` list: numbers are clamped,
anything else is kept (`_clamp(float(v)) if isinstance(v, (int, float))
else v`). -/
def scale_num : JVal → JVal
  | .num q => .num (clamp_conf q)
  | v => v

/-- Python `key.endswith("_confidence")` on the character level. -/
def py_endswith (s suffix : String) : Bool := List.isSuffixOf suffix.data s.data

/-- The numeric confidence values `_process_obj` collects into `vals`:
numbers stored under a `*_confidence` key plus the numbers inside a
`tags_confidence` list. -/
def conf_vals (obj : List (String × JVal)) : List ℚ :=
  (obj.filterMap fun kv =>
    if py_endswith kv.1 "_confidence" then
      match kv.2 with
      | .num q => some q
      | _ => none
    else none)
  ++ (match alookup obj "tags_confidence" with
      | some (.arr xs) => xs.filterMap fun v =>
          match v with
          | .num q => some q
          | _ => none
      | _ => [])

/-- Rewrite of one dict entry in the scaling pass of `_process_obj`:
numeric `*_confidence` values are clamped to `0..10`, a `tags_confidence`
list is mapped element-wise, everything else is untouched.  (Positional
rewriting is equivalent to the source's keyed assignments because Python
dict keys are unique.) -/
def scale_entry (kv : String × JVal) : String × JVal :=
  if py_endswith kv.1 "_confidence" then
    match kv.2 with
    | .num q => (kv.1, .num (clamp_conf q))
    | .arr xs => if kv.1 = "tags_confidence" then (kv.1, .arr (xs.map scale_num)) else kv
    | _ => kv
  else kv

/-- `ai_common.normalize_confidence_numbers` restricted to a single dict
(the `isinstance(data, dict)` branch): scale all confidence numbers by 10
iff some exist and all are `<= 1.0`. -/
def normalize_confidence_numbers (obj : List (String × JVal)) : List (String × JVal) :=
  match conf_vals obj with
  | [] => obj
  | v :: vs => if vs.foldl max v ≤ 1 then obj.map scale_entry else obj

end AICommon

namespace PDFDoc

/-- The stored `creation_date` attribute: `unset` is the constructor-time
empty string, `cleared` the `None` written by the falsy branch of
`set_creation_date`, `date` a parsed `datetime` (abstracted to `ℤ`). -/
inductive CDate : Type where
  | unset
  | cleared
  | date (d : ℤ)
deriving DecidableEq

/-- A `set_creation_date` argument, quotiented by the external parsing
pipeline (`date_formats` regexes, `strptime`, `pdf_date_to_datetime`):
`empty` is any falsy value, `parseable d` a value the pipeline turns into
a `datetime` `d` (timezone normalisation folded in), `unparseable` a
non-empty string no format accepts. -/
inductive DateInput : Type where
  | empty
  | parseable (d : ℤ)
  | unparseable
deriving DecidableEq

/-- The metadata fields of `PDFDocument` the confidence-gated setters
touch.  Confidences are integers (`[0,10]` in practice), `importance` is
`None` until first set. -/
structure Doc : Type where
  title : String
  title_confidence : ℤ
  summary : String
  summary_confidence : ℤ
  creation_date : CDate
  creation_date_confidence : ℤ
  creator : String
  creator_confidence : ℤ
  importance : Option ℚ
  importance_confidence : ℤ
  tags : List String
  tags_confidence : List ℤ
deriving DecidableEq

/-- The field initialisation in `PDFDocument.__init__`. -/
def freshDoc : Doc :=
  { title := "", title_confidence := 0, summary := "", summary_confidence := 0,
    creation_date := .unset, creation_date_confidence := 0,
    creator := "", creator_confidence := 0,
    importance := none, importance_confidence := 0,
    tags := [], tags_confidence := [] }

/-- `PDFDocument.set_title`. -/
def set_title (doc : Doc) (title : String) (confidence : ℤ) : Doc :=
  if confidence ≥ doc.title_confidence then
    { doc with title := title, title_confidence := confidence }
  else doc

/-- `PDFDocument.set_summary`. -/
def set_summary (doc : Doc) (summary : String) (confidence : ℤ) : Doc :=
  if confidence ≥ doc.summary_confidence then
    { doc with summary := summary, summary_confidence := confidence }
  else doc

/-- `PDFDocument.set_creator`. -/
def set_creator (doc : Doc) (creator : String) (confidence : ℤ) : Doc :=
  if confidence ≥ doc.creator_confidence then
    { doc with creator := creator, creator_confidence := confidence }
  else doc

/-- `PDFDocument.set_importance`. -/
def set_importance (doc : Doc) (importance : ℚ) (confidence : ℤ) : Doc :=
  if confidence ≥ doc.importance_confidence then
    { doc with importance := some importance, importance_confidence := confidence }
  else doc

/-- `PDFDocument.set_creation_date`: a falsy value clears the stored date
unconditionally and returns; a parseable value is stored iff the incoming
confidence is `>=` the current one; an unparseable value changes
nothing. -/
def set_creation_date (doc : Doc) (input : DateInput) (confidence : ℤ) : Doc :=
  match input with
  | .empty => { doc with creation_date := .cleared }
  | .parseable d =>
    if confidence ≥ doc.creation_date_confidence then
      { doc with creation_date := .date d, creation_date_confidence := confidence }
    else doc
  | .unparseable => doc

/-- The first loop of `set_tags` (rebuilding `tag_conf_map` from the
existing `self.tags` / `self.tags_confidence`), written with the two
lists consumed in lockstep: `cs.headD 0` is the source's
`self.tags_confidence[index] if index < len(self.tags_confidence) else 0`. -/
def build_existing_aux (m : List (String × ℤ)) : List String → List ℤ → List (String × ℤ)
  | [], _ => m
  | t :: ts, cs =>
    let ec := cs.headD 0
    let m' := if t = "" then m else aset m t (max ((alookup m t).getD ec) ec)
    build_existing_aux m' ts cs.tail

/-- The second loop of `set_tags`: merge the incoming `(tag, confidence)`
pairs into `tag_conf_map`, keeping the best confidence per tag. -/
def merge_incoming (m : List (String × ℤ)) (pairs : List (String × ℤ)) : List (String × ℤ) :=
  pairs.foldl (fun m p =>
    if p.1 = "" then m
    else
      match alookup m p.1 with
      | none => aset m p.1 p.2
      | some ec => if p.2 ≥ ec then aset m p.1 (max ec p.2) else m) m

/-- `PDFDocument.set_tags`; `none` models the `ValueError` raised when
the two lists differ in length (raised before any mutation, so the
document is unchanged in that case). -/
def set_tags (doc : Doc) (tag_list : List String) (confidence_list : List ℤ) : Option Doc :=
  if tag_list.length ≠ confidence_list.length then none
  else
    let m := merge_incoming (build_existing_aux [] doc.tags doc.tags_confidence)
      (tag_list.zip confidence_list)
    some { doc with tags := m.map Prod.fst, tags_confidence := m.map Prod.snd }

end PDFDoc

namespace FileCache

/-- One cache file as written by `cache.set`: `created_at` / `expires_at`
from the JSON payload, `mtime` the file modification time `os.replace`
leaves (equal to the write time). -/
structure Entry (α : Type) : Type where
  created_at : ℚ
  expires_at : ℚ
  mtime : ℚ
  data : α
deriving DecidableEq

/-- The module-level cache configuration (`_enabled`, `_ttl_seconds`). -/
structure CacheCfg : Type where
  enabled : Bool
  ttl_seconds : ℚ
deriving DecidableEq

/-- The cache directory: one entry per `(bucket, key)` pair (the source
stores one file per key, sharded by key prefix — the sharding does not
change the key-to-file mapping). -/
def Store (α : Type) : Type := List ((String × String) × Entry α)

/-- `cache.set` at time `now`: atomically (re)writes the entry file with
a fresh `created_at` / `expires_at` payload. -/
def cache_set {α : Type} (cfg : CacheCfg) (st : Store α) (bucket key : String)
    (data : α) (now : ℚ) : Store α :=
  if cfg.enabled = false then st
  else aset st (bucket, key)
    { created_at := now, expires_at := now + cfg.ttl_seconds, mtime := now, data := data }

/-- `cache.get` at time `now`: `none` on absence; a non-positive
`expires_at` falls back to `mtime + ttl`; an expired entry is deleted
lazily and misses; otherwise the stored data is returned. -/
def cache_get {α : Type} (cfg : CacheCfg) (st : Store α) (bucket key : String)
    (now : ℚ) : Option α × Store α :=
  if cfg.enabled = false then (none, st)
  else
    match alookup st (bucket, key) with
    | none => (none, st)
    | some e =>
      let exp := if e.expires_at ≤ 0 then e.mtime + cfg.ttl_seconds else e.expires_at
      if now ≥ exp then (none, aremove st (bucket, key)) else (some e.data, st)

end FileCache

namespace JobMgr

/-- `Job.status` values. -/
inductive JStatus : Type where
  | pending
  | running
  | done
  | failed
deriving DecidableEq

/-- One job as added to `JobManager`: `runOk` abstracts whether its `run`
callable returns normally or raises. -/
structure JobIn : Type where
  id : String
  kind : String
  runOk : Bool
  deps : List String
deriving DecidableEq

/-- Outcome of one submitted runner: the job's final recorded status,
whether its `run` callable was invoked, and whether its future completed
without an exception. -/
structure JRes : Type where
  status : JStatus
  ran : Bool
  futOk : Bool
deriving DecidableEq

/-- The body of `JobManager._submit_with_status.runner`, as a function of
the awaited dependency futures' outcomes: if any dependency future
raised, the runner raises `RuntimeError` before any `_mark` call (the
job's status is never changed from `pending` and `run` is not invoked);
otherwise the job is marked `running`, `run` is invoked, and the job ends
`done` or `failed`. -/
def runner (depOutcomes : List Bool) (runOk : Bool) : JRes :=
  if depOutcomes.any (fun ok => ok = false) then
    { status := .pending, ran := false, futOk := false }
  else if runOk then { status := .done, ran := true, futOk := true }
  else { status := .failed, ran := true, futOk := false }

/-- The submission order of `JobManager.run`: all `ocr` jobs in insertion
order, then all other jobs in insertion order. -/
def submission_order (jobs : List JobIn) : List JobIn :=
  jobs.filter (fun j => j.kind = "ocr") ++ jobs.filter (fun j => ¬j.kind = "ocr")

/-- The futures table at the end of `JobManager.run`.  `wait_for` of each
job contains exactly the futures of its dependency ids already in
`self._futures` at submission time; a dependency id never submitted is
skipped.  Final statuses depend only on the awaited futures' outcomes, so
evaluating the runners in submission order is faithful to the threaded
execution. -/
def process (jobs : List JobIn) : List (String × JRes) :=
  (submission_order jobs).foldl (fun futs j =>
    let waitFor := j.deps.filterMap (fun d => (alookup futs d).map JRes.futOk)
    futs ++ [(j.id, runner waitFor j.runOk)]) []

/-- The final `(pending, running, done, failed)` tally `run()` returns. -/
def tally (rs : List (String × JRes)) : ℕ × ℕ × ℕ × ℕ :=
  (((rs.filter (fun r => r.2.status = .pending)).length,
    (rs.filter (fun r => r.2.status = .running)).length,
    (rs.filter (fun r => r.2.status = .done)).length,
    (rs.filter (fun r => r.2.status = .failed)).length))

/-- Concrete input for the dependency-failure behaviour: an OCR job whose
`run` raises, and a text job depending on it. -/
def c3_jobs : List JobIn :=
  [{ id := "ocr:a.pdf", kind := "ocr", runOk := false, deps := [] },
   { id := "text:a.pdf", kind := "text", runOk := true, deps := ["ocr:a.pdf"] }]

end JobMgr

namespace Combined

/-- One entry of `image_candidates` in `analyze_combined`: a region
(embedded image or captured vector figure) with its 1-based page, bbox in
PDF points, area and kind string. -/
structure Cand : Type where
  id : ℤ
  page : ℤ
  bbox : ℚ × ℚ × ℚ × ℚ
  area : ℚ
  kind : String
deriving DecidableEq

/-- One entry of the `candidates` list built from `per_page`: either a
synthetic full-page candidate (`{"kind": "page", "area": inf}`) or a
region candidate. -/
inductive CEntry : Type where
  | pageC (page : ℤ)
  | regionC (c : Cand)
deriving DecidableEq

instance : Inhabited CEntry := ⟨.pageC 0⟩

/-- `int(c.get("page", 0))` on a candidate dict. -/
def cePage : CEntry → ℤ
  | .pageC p => p
  | .regionC c => c.page

/-- The sort key of the `early` bucket: `-1` for synthetic page
candidates, the encounter-order id for regions. -/
def earlyKey : CEntry → ℤ
  | .pageC _ => -1
  | .regionC c => c.id

/-- The sort key of the `rest` bucket: candidate area, `float('inf')`
for synthetic page candidates. -/
def areaVal : CEntry → WithTop ℚ
  | .pageC _ => ⊤
  | .regionC c => (c.area : WithTop ℚ)

/-- The configuration values `analyze_combined` reads from `config`. -/
structure Cfg : Type where
  token_limit : ℤ
  tokens_per_image : ℤ
  priority_first_pages : ℤ
  page_group_threshold : ℤ
  image_render_max_px : ℤ
  page_render_max_px : ℤ
deriving DecidableEq

/-- The per-document inputs of the budgeting/assembly core of
`analyze_combined`: the intro block (instruction template plus
`doc.to_api_json()`, built just above the modelled region), the
`type == "text"` entries of `elements` as `(page, text)`, the
`image_candidates` list, `doc.pages` width/height in points, and the two
base64 renderers (returning `""` for a failed render, the source's
`or ""`). -/
structure DocIn : Type where
  intro : String
  text_elements : List (ℤ × String)
  image_candidates : List Cand
  pages : List (ℚ × ℚ)
  render_page : ℤ → ℤ → String
  render_region : ℤ → (ℚ × ℚ × ℚ × ℚ) → ℤ → String

/-- Python `int()` applied to a non-negative-or-negative rational:
truncation toward zero. -/
def pyInt (q : ℚ) : ℤ := if 0 ≤ q then ⌊q⌋ else -⌊-q⌋

/-- Python list indexing `doc.pages[i]` (negative indices count from the
end); `none` models the `IndexError` the surrounding `try` turns into the
fallback. -/
def page_dims (pages : List (ℚ × ℚ)) (idx : ℤ) : Option (ℚ × ℚ) :=
  let n : ℤ := pages.length
  let j := if idx < 0 then idx + n else idx
  if 0 ≤ j ∧ j < n then pages[j.toNat]? else none

/-- `_estimate_tokens_for_candidate`: OpenAI-style tile cost.  Scale the
candidate to the configured max pixel edge, tile into 512-px blocks, cost
`85 + 170 * tiles`; any exception (e.g. page index out of range) yields
the conservative `4000`. -/
def est_tokens (cfg : Cfg) (doc : DocIn) (c : CEntry) : ℕ :=
  if cfg.tokens_per_image > 0 then cfg.tokens_per_image.toNat
  else
    match c with
    | .pageC p =>
      match page_dims doc.pages (p - 1) with
      | none => 4000
      | some pq =>
        let pw := pq.1
        let ph := pq.2
        let longest := max pw ph
        let scale := if 0 < longest ∧ cfg.page_render_max_px ≠ 0 then
            min 1 ((cfg.page_render_max_px : ℚ) / longest) else 1
        let wpx := max 1 (pyInt (pw * scale))
        let hpx := max 1 (pyInt (ph * scale))
        let tiles := ⌈(wpx : ℚ) / 512⌉ * ⌈(hpx : ℚ) / 512⌉
        (85 + 170 * tiles).toNat
    | .regionC cand =>
      let rw := cand.bbox.2.2.1 - cand.bbox.1
      let rh := cand.bbox.2.2.2 - cand.bbox.2.1
      let longest := max rw rh
      let scale := if 0 < longest ∧ cfg.image_render_max_px ≠ 0 then
          min 1 ((cfg.image_render_max_px : ℚ) / longest) else 1
      let wpx := max 1 (pyInt (rw * scale))
      let hpx := max 1 (pyInt (rh * scale))
      let tiles := ⌈(wpx : ℚ) / 512⌉ * ⌈(hpx : ℚ) / 512⌉
      (85 + 170 * tiles).toNat

/-- Python `str.strip()`: drop leading and trailing whitespace. -/
def py_strip (s : String) : String :=
  String.mk (((s.data.dropWhile Char.isWhitespace).reverse.dropWhile Char.isWhitespace).reverse)

/-- The `page_text_map` aggregation loop: per page, concatenate the
stripped non-empty text elements in encounter order, separated by blank
lines. -/
def build_page_text_map (els : List (ℤ × String)) : List (ℤ × String) :=
  els.foldl (fun m pv =>
    let txt := py_strip pv.2
    if txt = "" then m
    else
      match alookup m pv.1 with
      | none => aset m pv.1 txt
      | some prev => aset m pv.1 (prev ++ "\n\n" ++ txt)) []

/-- The page banner prefixed to each page's text block. -/
def page_header (p : ℤ) : String := "[Page " ++ toString p ++ "]\n"

/-- The initial `text_parts` list: pages of `page_text_map` in ascending
order, each text prefixed by its page banner. -/
def text_parts_init (m : List (ℤ × String)) : List (ℤ × String) :=
  (List.insertionSort (fun a b => a ≤ b) (m.map Prod.fst)).filterMap
    (fun p => (alookup m p).map (fun t => (p, page_header p ++ t)))

/-- The proportional text-trimming step: when intro plus page texts
exceed the limit, give each page a token target proportional to its share
of the non-intro budget, drop pages whose target is zero, and cut the
others by character ratio (`t[:max(1, cut)]`). -/
def trim_text (limit : ℤ) (intro_tokens : ℕ) (tps : List (ℤ × String)) : List (ℤ × String) :=
  let total_pages := (tps.map (fun pt => AICommon.tokenize_text pt.2)).sum
  if ((intro_tokens + total_pages : ℕ) : ℤ) > limit then
    let budget := (limit - intro_tokens).toNat
    let tp := if total_pages = 0 then 1 else total_pages
    tps.filterMap (fun pt =>
      let tok := AICommon.tokenize_text pt.2
      let tgt := tok * budget / tp
      if tgt = 0 then none
      else
        let cut := pt.2.length * tgt / max 1 (AICommon.tokenize_text pt.2)
        some (pt.1, String.mk (pt.2.data.take (max 1 cut))))
  else tps

/-- The `per_page` grouping of `image_candidates` (insertion-ordered
dict of lists). -/
def group_per_page (cands : List Cand) : List (ℤ × List Cand) :=
  cands.foldl (fun m c =>
    match alookup m c.page with
    | none => aset m c.page [c]
    | some l => aset m c.page (l ++ [c])) []

/-- The `candidates` list: pages with at least `page_group_threshold`
regions collapse into one synthetic full-page candidate, otherwise the
regions stand individually. -/
def make_candidates (threshold : ℤ) (cands : List Cand) : List CEntry :=
  (group_per_page cands).foldl (fun acc pm =>
    if (pm.2.length : ℤ) ≥ threshold then acc ++ [CEntry.pageC pm.1]
    else acc ++ pm.2.map CEntry.regionC) []

/-- The candidate ordering: first the candidates on the first
`priority_first_pages` pages sorted by encounter id (synthetic pages
first), then the remaining candidates by descending area; both Python
sorts are stable. -/
def order_candidates (cfg : Cfg) (cands : List CEntry) : List CEntry :=
  let early := List.insertionSort (fun a b => earlyKey a ≤ earlyKey b)
    (cands.filter (fun c => decide (cePage c ≤ cfg.priority_first_pages)))
  let rest := List.insertionSort (fun a b => areaVal b ≤ areaVal a)
    (cands.filter (fun c => decide (cfg.priority_first_pages < cePage c)))
  early ++ rest

/-- Python `set.add`. -/
def setAdd (l : List ℤ) (x : ℤ) : List ℤ := if x ∈ l then l else l ++ [x]

/-- The running state of the greedy selection loop. -/
structure SelState : Type where
  selected_pages : List ℤ
  selected_images : List ℤ
  remaining : ℕ
  spent : ℕ
  skipped : ℕ
deriving DecidableEq

/-- One iteration of the greedy selection loop: skip a candidate that
does not fit the remaining budget (counting it), skip a region on an
already fully-selected page, otherwise admit and pay. -/
def greedy_step (cfg : Cfg) (doc : DocIn) (st : SelState) (c : CEntry) : SelState :=
  let cost := est_tokens cfg doc c
  if st.remaining < cost then { st with skipped := st.skipped + 1 }
  else
    match c with
    | .pageC p =>
      { st with selected_pages := setAdd st.selected_pages p,
                remaining := st.remaining - cost, spent := st.spent + cost }
    | .regionC cand =>
      if cand.page ∈ st.selected_pages then st
      else
        { st with selected_images := setAdd st.selected_images cand.id,
                  remaining := st.remaining - cost, spent := st.spent + cost }

/-- The greedy selection over the ordered candidates. -/
def greedy_select (cfg : Cfg) (doc : DocIn) (ordered : List CEntry) (remaining0 : ℕ) : SelState :=
  ordered.foldl (greedy_step cfg doc) ⟨[], [], remaining0, 0, 0⟩

/-- `math.ceil(math.sqrt(n))` for a natural number: the least `k` with
`n ≤ k * k` (the argument is at most 9 here, so the float square root is
exact). -/
def ceil_sqrt (n : ℕ) : ℕ :=
  ((List.range (n + 1)).find? (fun k => n ≤ k * k)).getD n

/-- Render-resolution override keys: `("page", page_no)` is `(true, p)`,
`("id", image_id)` is `(false, id)`. -/
def OvKey : Type := Bool × ℤ

instance : DecidableEq OvKey := instDecidableEqProd

/-- The adaptive fallback: when nothing was admitted but candidates
exist and at least one tile (≈255 tokens) fits the remaining budget minus
a safety margin, admit the first synthetic page candidate (else the first
candidate), downscaled so that `ceil(sqrt(target_tiles))` 512-px tiles
per side are charged, and record its render-resolution override.  An
`IndexError` while reading the page dimensions aborts the fallback
silently. -/
def adaptive_fallback (cfg : Cfg) (doc : DocIn) (ordered : List CEntry) (st : SelState) :
    SelState × List (OvKey × ℤ) :=
  if st.selected_pages = [] ∧ st.selected_images = [] ∧ ordered ≠ [] then
    let afford := st.remaining - 10
    if afford ≥ 85 + 170 * 1 then
      let best := (ordered.find? (fun c =>
        match c with
        | .pageC _ => true
        | .regionC _ => false)).getD (ordered.headD default)
      let target_tiles := max 1 (min 9 ((afford - 85) / 170))
      let per_side := ceil_sqrt target_tiles
      let longest_target := max 1 (per_side * 512)
      let chosen_tokens := 85 + 170 * (per_side * per_side)
      match best with
      | .pageC p0 =>
        let pno := if p0 = 0 then 1 else p0
        match page_dims doc.pages (pno - 1) with
        | none => (st, [])
        | some _ =>
          ({ st with selected_pages := setAdd st.selected_pages pno,
                     spent := st.spent + chosen_tokens,
                     remaining := st.remaining - chosen_tokens },
           [((true, pno), min cfg.page_render_max_px (longest_target : ℤ))])
      | .regionC cand =>
        ({ st with selected_images := setAdd st.selected_images cand.id,
                   spent := st.spent + chosen_tokens,
                   remaining := st.remaining - chosen_tokens },
         [((false, cand.id), min cfg.image_render_max_px (longest_target : ℤ))])
    else (st, [])
  else (st, [])

/-- One entry of the final `parts` sequence, tagged with its provenance
(the source's dicts are the obvious projection): the intro text block, a
page's (possibly trimmed) text block, or a rendered image of a page. -/
inductive TPart : Type where
  | intro (s : String)
  | pageText (page : ℤ) (s : String)
  | pageImage (page : ℤ) (url : String)

/-- The page a part belongs to (`none` for the intro block). -/
def partPage : TPart → Option ℤ
  | .intro _ => none
  | .pageText p _ => some p
  | .pageImage p _ => some p

/-- Within one page, text ranks before images. -/
def partRank : TPart → ℕ
  | .intro _ => 0
  | .pageText _ _ => 0
  | .pageImage _ _ => 1

/-- The page-text part emitted for page `p` (`if t:` skips pages whose
text is absent after trimming). -/
def text_chunk (text_parts : List (ℤ × String)) (p : ℤ) : List TPart :=
  match alookup text_parts p with
  | some t => if t ≠ "" then [TPart.pageText p t] else []
  | none => []

/-- The image parts emitted for page `p`: a full-page render when `p` was
selected as a whole, else the selected regions of `p` by ascending id;
each at its overridden or configured resolution, skipping failed
renders. -/
def image_chunk (cfg : Cfg) (doc : DocIn) (selPages selImgs : List ℤ)
    (ov : List (OvKey × ℤ)) (p : ℤ) : List TPart :=
  if p ∈ selPages then
    let px := (alookup ov (true, p)).getD cfg.page_render_max_px
    let b64 := doc.render_page (p - 1) px
    if b64 ≠ "" then [TPart.pageImage p b64] else []
  else
    let metas := List.insertionSort (fun a b => a.id ≤ b.id)
      (doc.image_candidates.filter
        (fun m => decide (m.page = p) && decide (m.id ∈ selImgs)))
    metas.flatMap (fun m =>
      let px := (alookup ov (false, m.id)).getD cfg.image_render_max_px
      let b64 := doc.render_region (p - 1) m.bbox px
      if b64 ≠ "" then [TPart.pageImage p b64] else [])

/-- Everything emitted for page `p`: its text block first, then its
images. -/
def page_parts (cfg : Cfg) (doc : DocIn) (text_parts : List (ℤ × String))
    (selPages selImgs : List ℤ) (ov : List (OvKey × ℤ)) (p : ℤ) : List TPart :=
  text_chunk text_parts p ++ image_chunk cfg doc selPages selImgs ov p

/-- `sorted({*page_text_map.keys(), *[m["page"] for m in
image_candidates]})`: every page holding text or a candidate, ascending,
without duplicates. -/
def pages_in_doc (ptm : List (ℤ × String)) (cands : List Cand) : List ℤ :=
  List.insertionSort (fun a b => a ≤ b)
    (((ptm.map Prod.fst) ++ (cands.map Cand.page)).dedup)

/-- The final assembly loop: one intro part, then per page in ascending
order its non-empty trimmed text block followed by its admitted
images. -/
def assemble (cfg : Cfg) (doc : DocIn) (ptm : List (ℤ × String))
    (text_parts : List (ℤ × String)) (selPages selImgs : List ℤ)
    (ov : List (OvKey × ℤ)) : List TPart :=
  TPart.intro doc.intro ::
    (pages_in_doc ptm doc.image_candidates).flatMap
      (page_parts cfg doc text_parts selPages selImgs ov)

/-- The ordering contract on two assembled parts: between parts carrying
pages, the pages must ascend, and on one page text (rank 0) must not
follow an image (rank 1). -/
def partLe (a b : TPart) : Prop :=
  match partPage a, partPage b with
  | some pa, some pb => pa < pb ∨ (pa = pb ∧ partRank a ≤ partRank b)
  | _, _ => True

/-- The outputs of the modelled region of `analyze_combined` that the
checked properties read. -/
structure Result : Type where
  parts : List TPart
  intro_tokens : ℕ
  used_tokens : ℕ
  image_tokens_spent : ℕ
  remaining : ℕ
  selected_pages : List ℤ
  selected_images : List ℤ
  skipped_due_budget : ℕ

instance : Inhabited Result :=
  ⟨{ parts := [], intro_tokens := 0, used_tokens := 0, image_tokens_spent := 0,
     remaining := 0, selected_pages := [], selected_images := [],
     skipped_due_budget := 0 }⟩

/-- The budgeting and request-assembly core of `analyze_combined`
(`ai_tasks.py`, from the intro/`page_text_map` block to the final parts
assembly): abort with `none` when the intro alone exceeds the token
limit, else trim the page texts proportionally, greedily admit images
under the remaining budget, apply the adaptive fallback, and assemble
the page-ordered parts sequence. -/
def analyze_combined (cfg : Cfg) (doc : DocIn) : Option Result :=
  let intro_tokens := AICommon.tokenize_text doc.intro
  if (intro_tokens : ℤ) > cfg.token_limit then none
  else
    let ptm := build_page_text_map doc.text_elements
    let tps := trim_text cfg.token_limit intro_tokens (text_parts_init ptm)
    let used := intro_tokens + (tps.map (fun pt => AICommon.tokenize_text pt.2)).sum
    let remaining0 := (cfg.token_limit - used).toNat
    let ordered := order_candidates cfg (make_candidates cfg.page_group_threshold doc.image_candidates)
    let sel := adaptive_fallback cfg doc ordered (greedy_select cfg doc ordered remaining0)
    some
      { parts := assemble cfg doc ptm tps sel.1.selected_pages sel.1.selected_images sel.2,
        intro_tokens := intro_tokens,
        used_tokens := used,
        image_tokens_spent := sel.1.spent,
        remaining := sel.1.remaining,
        selected_pages := sel.1.selected_pages,
        selected_images := sel.1.selected_images,
        skipped_due_budget := sel.1.skipped }

/-- Concrete input exhibiting the adaptive-fallback overshoot: a token
limit of 510 with a 40-character intro (10 estimated tokens, so 500
tokens of budget remain), no page text, and a single 2000×2000-pt region
candidate (the same arithmetic arises at any intro size whenever
`token_limit - used_tokens` lands in `[435, 604]`). -/
def cfg1 : Cfg :=
  { token_limit := 510, tokens_per_image := 0, priority_first_pages := 3,
    page_group_threshold := 3, image_render_max_px := 1536, page_render_max_px := 1536 }

/-- The single candidate of the adaptive-fallback overshoot input. -/
def cand1 : Cand :=
  { id := 1, page := 1, bbox := (0, 0, 2000, 2000), area := 4000000, kind := "image" }

/-- The document side of the adaptive-fallback overshoot input. -/
def doc1 : DocIn :=
  { intro := String.mk (List.replicate 40 'a'),
    text_elements := [],
    image_candidates := [cand1],
    pages := [],
    render_page := fun _ _ => "",
    render_region := fun _ _ _ => "IMG" }

/-- Configuration of the ordering-contract witness: flat per-image cost
(`combined_tokens_per_image`), generous limit. -/
def cfg2 : Cfg :=
  { token_limit := 100000, tokens_per_image := 100, priority_first_pages := 3,
    page_group_threshold := 3, image_render_max_px := 1536, page_render_max_px := 1536 }

/-- Document of the ordering-contract witness: text on pages 1 and 2,
one region candidate on each of pages 1 and 2. -/
def doc2 : DocIn :=
  { intro := "intro block",
    text_elements := [(2, "second page text"), (1, "first page text")],
    image_candidates :=
      [{ id := 1, page := 2, bbox := (0, 0, 100, 100), area := 10000, kind := "image" },
       { id := 2, page := 1, bbox := (0, 0, 50, 50), area := 2500, kind := "figure" }],
    pages := [(600, 800), (600, 800)],
    render_page := fun _ _ => "",
    render_region := fun _ _ _ => "IMGDATA" }

end Combined

namespace PDFDoc

/-- A sequence of `set_title` calls applied in order. -/
def apply_title_calls (doc : Doc) (calls : List (String × ℤ)) : Doc :=
  calls.foldl (fun d p => set_title d p.1 p.2) doc

/-- A sequence of `set_summary` calls applied in order. -/
def apply_summary_calls (doc : Doc) (calls : List (String × ℤ)) : Doc :=
  calls.foldl (fun d p => set_summary d p.1 p.2) doc

/-- A sequence of `set_creator` calls applied in order. -/
def apply_creator_calls (doc : Doc) (calls : List (String × ℤ)) : Doc :=
  calls.foldl (fun d p => set_creator d p.1 p.2) doc

/-- A sequence of `set_importance` calls applied in order. -/
def apply_importance_calls (doc : Doc) (calls : List (ℚ × ℤ)) : Doc :=
  calls.foldl (fun d p => set_importance d p.1 p.2) doc

/-- The shared value/confidence update of the four scalar setters on the
pair view of one field. -/
def gated {α : Type} (st : α × ℤ) (p : α × ℤ) : α × ℤ := if p.2 ≥ st.2 then p else st

/-- A call sequence folded through `gated`. -/
def runCalls {α : Type} (init : α × ℤ) (calls : List (α × ℤ)) : α × ℤ :=
  calls.foldl gated init

/-- The maximum confidence supplied across a call sequence (`0` when
empty, matching the constructor-time confidence). -/
def maxConf {α : Type} (calls : List (α × ℤ)) : ℤ := calls.foldl (fun m p => max m p.2) 0

/-- The value of the most recent call in the sequence that supplied
confidence `m`. -/
def lastAtMax {α : Type} (m : ℤ) (calls : List (α × ℤ)) : Option α :=
  calls.foldl (fun acc p => if p.2 = m then some p.1 else acc) none

end PDFDoc


namespace PDFDoc

/-- A document holding a creation date at confidence 5 (counterexample
input for the creation-date claim). -/
def d5 : Doc := { freshDoc with creation_date := .date 0, creation_date_confidence := 5 }

end PDFDoc

section AssocLemmas

variable {κ β : Type} [DecidableEq κ]

theorem alookup_aset_self (m : List (κ × β)) (k : κ) (v : β) :
    alookup (aset m k v) k = some v := by
  induction m with
  | nil => simp [aset, alookup]
  | cons hd tl ih =>
    obtain ⟨k1, v1⟩ := hd
    by_cases h : k1 = k
    · subst h; simp [aset, alookup]
    · simp [aset, alookup, h, ih]

theorem alookup_aset_of_ne (m : List (κ × β)) {k k' : κ} (v : β) (h : k' ≠ k) :
    alookup (aset m k v) k' = alookup m k' := by
  induction m with
  | nil => simp [aset, alookup, Ne.symm h]
  | cons hd tl ih =>
    obtain ⟨k1, v1⟩ := hd
    by_cases h1 : k1 = k
    · subst h1; simp [aset, alookup, Ne.symm h]
    · by_cases h2 : k1 = k'
      · subst h2; simp [aset, alookup, h1]
      · simp [aset, alookup, h1, h2, ih]

theorem aset_eq_of_alookup {m : List (κ × β)} {k : κ} {v : β}
    (h : alookup m k = some v) : aset m k v = m := by
  induction m with
  | nil => simp [alookup] at h
  | cons hd tl ih =>
    obtain ⟨k1, v1⟩ := hd
    by_cases h1 : k1 = k
    · subst h1
      simp only [alookup, if_pos rfl] at h
      injection h with hv
      simp [aset, hv]
    · simp only [alookup, if_neg h1] at h
      simp [aset, h1, ih h]

theorem aset_eq_append {m : List (κ × β)} {k : κ} (v : β)
    (h : alookup m k = none) : aset m k v = m ++ [(k, v)] := by
  induction m with
  | nil => simp [aset]
  | cons hd tl ih =>
    obtain ⟨k1, v1⟩ := hd
    by_cases h1 : k1 = k
    · simp [alookup, h1] at h
    · simp only [alookup, if_neg h1] at h
      simp [aset, h1, ih h]

theorem alookup_append_left {m : List (κ × β)} (m' : List (κ × β)) {k : κ} {v : β}
    (h : alookup m k = some v) : alookup (m ++ m') k = some v := by
  induction m with
  | nil => simp [alookup] at h
  | cons hd tl ih =>
    obtain ⟨k1, v1⟩ := hd
    by_cases h1 : k1 = k
    · simp only [alookup, if_pos h1] at h
      simp [alookup, h1, h]
    · simp only [alookup, if_neg h1] at h
      simp [alookup, h1, ih h]

theorem alookup_append_right {m : List (κ × β)} (m' : List (κ × β)) {k : κ}
    (h : alookup m k = none) : alookup (m ++ m') k = alookup m' k := by
  induction m with
  | nil => simp [alookup]
  | cons hd tl ih =>
    obtain ⟨k1, v1⟩ := hd
    by_cases h1 : k1 = k
    · simp [alookup, h1] at h
    · simp only [alookup, if_neg h1] at h
      simp [alookup, h1, ih h]

theorem alookup_eq_none_iff (m : List (κ × β)) (k : κ) :
    alookup m k = none ↔ k ∉ m.map Prod.fst := by
  induction m with
  | nil => simp [alookup]
  | cons hd tl ih =>
    obtain ⟨k1, v1⟩ := hd
    by_cases h1 : k1 = k
    · subst h1; simp [alookup]
    · simp [alookup, h1, ih, Ne.symm h1]

theorem keys_aset_of_some {m : List (κ × β)} {k : κ} {w : β} (v : β)
    (h : alookup m k = some w) : (aset m k v).map Prod.fst = m.map Prod.fst := by
  induction m with
  | nil => simp [alookup] at h
  | cons hd tl ih =>
    obtain ⟨k1, v1⟩ := hd
    by_cases h1 : k1 = k
    · subst h1; simp [aset]
    · simp only [alookup, if_neg h1] at h
      simp [aset, h1, ih h]

theorem nodup_keys_aset {m : List (κ × β)} (k : κ) (v : β)
    (h : (m.map Prod.fst).Nodup) : ((aset m k v).map Prod.fst).Nodup := by
  cases hl : alookup m k with
  | some w => rw [keys_aset_of_some v hl]; exact h
  | none =>
    rw [aset_eq_append v hl]
    have hk : k ∉ m.map Prod.fst := (alookup_eq_none_iff m k).1 hl
    simp [List.nodup_append, h, hk]

theorem alookup_aremove_self {m : List (κ × β)} {k : κ}
    (h : (m.map Prod.fst).Nodup) : alookup (aremove m k) k = none := by
  induction m with
  | nil => simp [aremove, alookup]
  | cons hd tl ih =>
    obtain ⟨k1, v1⟩ := hd
    simp only [List.map_cons, List.nodup_cons] at h
    by_cases h1 : k1 = k
    · subst h1
      simp only [aremove, if_pos rfl]
      exact (alookup_eq_none_iff tl k1).2 h.1
    · simp only [aremove, if_neg h1]
      simp [alookup, h1, ih h.2]

end AssocLemmas

/-- Claim C3: in `JobManager`, when a job's dependency ends `failed`, the
dependent's `run` callable is indeed never invoked, but — contrary to the
claim and to the source's own comment ("Upstream failed; mark failed and
abort") — the dependent is never marked `failed`: the runner raises
before any `_mark` call, so the job stays `pending`, and the final tally
returned by `run()` contains a job still pending.  Evaluated at an OCR
job whose `run` raises and a text job depending on it. -/
theorem failed_dependency_leaves_dependent_pending :
    alookup (JobMgr.process JobMgr.c3_jobs) "text:a.pdf" =
      some { status := JobMgr.JStatus.pending, ran := false, futOk := false } ∧
    alookup (JobMgr.process JobMgr.c3_jobs) "ocr:a.pdf" =
      some { status := JobMgr.JStatus.failed, ran := true, futOk := false } ∧
    JobMgr.tally (JobMgr.process JobMgr.c3_jobs) = (1, 0, 0, 1) :=
  ⟨rfl, rfl, rfl⟩

namespace PDFDoc

/-- Claim C5 counterexample: on a document holding a date at confidence
5, `set_creation_date` with a falsy value and confidence 0 replaces the
stored field (clearing it to `None`) even though `0 >= 5` fails — the
"replaced only if confidence is at least the current one" direction of
the claim is false on the code. -/
theorem set_creation_date_clears_despite_lower_confidence :
    (set_creation_date d5 .empty 0).creation_date = CDate.cleared ∧
    d5.creation_date = CDate.date 0 ∧
    ¬ ((0 : ℤ) ≥ d5.creation_date_confidence) :=
  ⟨rfl, rfl, by decide⟩

/-- Claim C5 (amended): for a parseable date value the stored field is
replaced iff the incoming confidence is `>=` the current one (ties favour
the new value); a falsy value unconditionally clears the stored date
without touching the confidence; an unparseable value is a no-op; and the
stored confidence never decreases. -/
theorem set_creation_date_amended (doc : Doc) (input : DateInput) (conf : ℤ) :
    (input = .empty →
      (set_creation_date doc input conf).creation_date = .cleared ∧
      (set_creation_date doc input conf).creation_date_confidence =
        doc.creation_date_confidence) ∧
    (∀ d, input = .parseable d →
      (conf ≥ doc.creation_date_confidence →
        (set_creation_date doc input conf).creation_date = .date d ∧
        (set_creation_date doc input conf).creation_date_confidence = conf) ∧
      (¬ conf ≥ doc.creation_date_confidence →
        set_creation_date doc input conf = doc)) ∧
    (input = .unparseable → set_creation_date doc input conf = doc) ∧
    doc.creation_date_confidence ≤
      (set_creation_date doc input conf).creation_date_confidence := by
  cases input with
  | empty =>
    refine ⟨fun _ => ⟨rfl, rfl⟩, ?_, ?_, le_refl _⟩
    · intro d hd
      exact DateInput.noConfusion hd
    · intro h
      exact DateInput.noConfusion h
  | parseable d =>
    refine ⟨?_, ?_, ?_, ?_⟩
    · intro h
      exact DateInput.noConfusion h
    · intro e he
      injection he with hde
      subst hde
      constructor
      · intro hc
        simp [set_creation_date, hc]
      · intro hc
        simp [set_creation_date, hc]
    · intro h
      exact DateInput.noConfusion h
    · by_cases hc : conf ≥ doc.creation_date_confidence
      · simp only [set_creation_date, if_pos hc]
        exact hc
      · simp only [set_creation_date, if_neg hc]
        exact le_refl _
  | unparseable =>
    refine ⟨?_, ?_, fun _ => rfl, le_refl _⟩
    · intro h
      exact DateInput.noConfusion h
    · intro d hd
      exact DateInput.noConfusion hd

/-- Witness for the amended C5 statement at concrete inputs. -/
theorem set_creation_date_amended_witness :
    (set_creation_date freshDoc (.parseable 7) 3).creation_date = .date 7 ∧
    set_creation_date freshDoc .unparseable 3 = freshDoc := by
  constructor
  · exact (((set_creation_date_amended freshDoc (.parseable 7) 3).2.1 7 rfl).1
      (by decide)).1
  · exact (set_creation_date_amended freshDoc .unparseable 3).2.2.1 rfl

end PDFDoc

theorem not_mem_keys_aset {κ β : Type} [DecidableEq κ] {m : List (κ × β)} {k x : κ}
    (v : β) (hx : x ∉ m.map Prod.fst) (hk : x ≠ k) : x ∉ (aset m k v).map Prod.fst := by
  cases hl : alookup m k with
  | some w => rw [keys_aset_of_some v hl]; exact hx
  | none =>
    rw [aset_eq_append v hl]
    simp only [List.map_append, List.mem_append, List.map_cons, List.map_nil,
      List.mem_singleton]
    rintro (h | h)
    · exact hx h
    · exact hk h

namespace PDFDoc

theorem keys_build_existing_no_empty :
    ∀ (tags : List String) (cs : List ℤ) (m : List (String × ℤ)),
      "" ∉ m.map Prod.fst → "" ∉ (build_existing_aux m tags cs).map Prod.fst := by
  intro tags
  induction tags with
  | nil => intro cs m hm; exact hm
  | cons t ts ih =>
    intro cs m hm
    rw [build_existing_aux]
    by_cases ht : t = ""
    · simp only [ht, if_pos rfl]
      exact ih _ _ hm
    · simp only [if_neg ht]
      exact ih _ _ (not_mem_keys_aset _ hm (fun he => ht he.symm))

theorem keys_merge_no_empty :
    ∀ (pairs : List (String × ℤ)) (m : List (String × ℤ)),
      "" ∉ m.map Prod.fst → "" ∉ (merge_incoming m pairs).map Prod.fst := by
  intro pairs
  induction pairs with
  | nil => intro m hm; exact hm
  | cons p ps ih =>
    intro m hm
    have hstep : merge_incoming m (p :: ps) = merge_incoming
        (if p.1 = "" then m
         else
           match alookup m p.1 with
           | none => aset m p.1 p.2
           | some ec => if p.2 ≥ ec then aset m p.1 (max ec p.2) else m) ps := rfl
    rw [hstep]
    apply ih
    by_cases hp : p.1 = ""
    · simp only [if_pos hp]; exact hm
    · simp only [if_neg hp]
      have hne : ("" : String) ≠ p.1 := fun he => hp he.symm
      cases hl : alookup m p.1 with
      | none => exact not_mem_keys_aset _ hm hne
      | some ec =>
        by_cases hge : p.2 ≥ ec
        · simp only [if_pos hge]
          exact not_mem_keys_aset _ hm hne
        · simp only [if_neg hge]
          exact hm

/-- Claim C9: `set_tags` fails (raises `ValueError`, modelled as `none`)
iff the two lists differ in length — and the failure happens before any
mutation, so the document is unchanged; on success the resulting tag list
never contains the empty string (empty tags are silently skipped). -/
theorem set_tags_length_contract (doc : Doc) (tag_list : List String)
    (confidence_list : List ℤ) :
    (set_tags doc tag_list confidence_list = none ↔
      tag_list.length ≠ confidence_list.length) ∧
    (∀ doc', set_tags doc tag_list confidence_list = some doc' → "" ∉ doc'.tags) := by
  constructor
  · by_cases hl : tag_list.length ≠ confidence_list.length
    · simp [set_tags, hl]
    · simp [set_tags, hl]
  · intro doc' h
    by_cases hl : tag_list.length ≠ confidence_list.length
    · simp [set_tags, hl] at h
    · simp only [set_tags, if_neg hl] at h
      injection h with h
      subst h
      simp only []
      exact keys_merge_no_empty _ _ (keys_build_existing_no_empty _ _ [] (by simp))

/-- Witness for the `set_tags` length contract at concrete inputs. -/
theorem set_tags_length_contract_witness :
    (set_tags freshDoc ["a"] [] = none ↔ (1 : ℕ) ≠ 0) ∧
    (∀ doc', set_tags freshDoc ["a", ""] [4, 5] = some doc' → "" ∉ doc'.tags) := by
  constructor
  · exact (set_tags_length_contract freshDoc ["a"] []).1
  · exact (set_tags_length_contract freshDoc ["a", ""] [4, 5]).2

end PDFDoc

namespace PDFDoc

theorem gated_snd {α : Type} (st : α × ℤ) (p : α × ℤ) :
    (gated st p).2 = max st.2 p.2 := by
  by_cases h : p.2 ≥ st.2
  · simp [gated, h, max_eq_right h]
  · simp [gated, h, max_eq_left (le_of_not_le h)]

theorem runCalls_append {α : Type} (init : α × ℤ) (calls : List (α × ℤ)) (p : α × ℤ) :
    runCalls init (calls ++ [p]) = gated (runCalls init calls) p := by
  simp [runCalls, List.foldl_append]

theorem maxConf_append {α : Type} (calls : List (α × ℤ)) (p : α × ℤ) :
    maxConf (calls ++ [p]) = max (maxConf calls) p.2 := by
  simp [maxConf, List.foldl_append]

theorem lastAtMax_append {α : Type} (m : ℤ) (calls : List (α × ℤ)) (p : α × ℤ) :
    lastAtMax m (calls ++ [p]) = if p.2 = m then some p.1 else lastAtMax m calls := by
  simp [lastAtMax, List.foldl_append]

theorem maxConf_nonneg {α : Type} (calls : List (α × ℤ)) : 0 ≤ maxConf calls := by
  induction calls using List.reverseRecOn with
  | nil => simp [maxConf]
  | append_singleton l p ih =>
    rw [maxConf_append]
    exact le_trans ih (le_max_left _ _)

theorem runCalls_spec {α : Type} :
    ∀ (calls : List (α × ℤ)) (init : α × ℤ), init.2 = 0 →
      (∀ p ∈ calls, 0 ≤ p.2) → calls ≠ [] →
      (runCalls init calls).2 = maxConf calls ∧
      lastAtMax (maxConf calls) calls = some (runCalls init calls).1 := by
  intro calls
  induction calls using List.reverseRecOn with
  | nil => intro init _ _ hne; exact absurd rfl hne
  | append_singleton l p ih =>
    intro init hinit hpos _
    rcases eq_or_ne l [] with hl | hl
    · subst hl
      have hp0 : 0 ≤ p.2 := hpos p (by simp)
      have hge : p.2 ≥ init.2 := by rw [hinit]; exact hp0
      have hg : gated init p = p := by simp [gated, hge]
      have hrn : runCalls init [] = init := rfl
      have hm0 : maxConf ([] : List (α × ℤ)) = 0 := rfl
      constructor
      · rw [runCalls_append, hrn, hg, maxConf_append, hm0]
        exact (max_eq_right hp0).symm
      · rw [maxConf_append, hm0, runCalls_append, hrn, hg, max_eq_right hp0,
          lastAtMax_append, if_pos rfl]
    · have hposl : ∀ q ∈ l, 0 ≤ q.2 := fun q hq => hpos q (by simp [hq])
      obtain ⟨ihc, ihv⟩ := ih init hinit hposl hl
      by_cases hp : p.2 ≥ maxConf l
      · have hg : gated (runCalls init l) p = p := by
          simp [gated, ge_iff_le, ihc ▸ hp]
        constructor
        · rw [runCalls_append, hg, maxConf_append, max_eq_right hp]
        · rw [maxConf_append, max_eq_right hp, runCalls_append, hg,
            lastAtMax_append, if_pos rfl]
      · have hlt : p.2 < maxConf l := lt_of_not_le hp
        have hg : gated (runCalls init l) p = runCalls init l := by
          simp only [gated, ge_iff_le, ihc]
          rw [if_neg (not_le.mpr hlt)]
        constructor
        · rw [runCalls_append, hg, maxConf_append, max_eq_left (le_of_lt hlt), ihc]
        · rw [maxConf_append, max_eq_left (le_of_lt hlt), runCalls_append, hg,
            lastAtMax_append, if_neg (ne_of_lt hlt)]
          exact ihv

theorem apply_title_pair (calls : List (String × ℤ)) :
    ∀ doc : Doc, ((apply_title_calls doc calls).title,
      (apply_title_calls doc calls).title_confidence) =
      runCalls (doc.title, doc.title_confidence) calls := by
  induction calls with
  | nil => intro doc; rfl
  | cons p ps ih =>
    intro doc
    have h1 : apply_title_calls doc (p :: ps) =
        apply_title_calls (set_title doc p.1 p.2) ps := rfl
    have h2 : runCalls (doc.title, doc.title_confidence) (p :: ps) =
        runCalls (gated (doc.title, doc.title_confidence) p) ps := rfl
    rw [h1, h2]
    have h3 : ((set_title doc p.1 p.2).title, (set_title doc p.1 p.2).title_confidence) =
        gated (doc.title, doc.title_confidence) p := by
      by_cases h : p.2 ≥ doc.title_confidence <;> simp [set_title, gated, h]
    rw [← h3]
    exact ih _

theorem apply_summary_pair (calls : List (String × ℤ)) :
    ∀ doc : Doc, ((apply_summary_calls doc calls).summary,
      (apply_summary_calls doc calls).summary_confidence) =
      runCalls (doc.summary, doc.summary_confidence) calls := by
  induction calls with
  | nil => intro doc; rfl
  | cons p ps ih =>
    intro doc
    have h3 : ((set_summary doc p.1 p.2).summary,
        (set_summary doc p.1 p.2).summary_confidence) =
        gated (doc.summary, doc.summary_confidence) p := by
      by_cases h : p.2 ≥ doc.summary_confidence <;> simp [set_summary, gated, h]
    show ((apply_summary_calls (set_summary doc p.1 p.2) ps).summary, _) =
      runCalls (gated (doc.summary, doc.summary_confidence) p) ps
    rw [← h3]
    exact ih _

theorem apply_creator_pair (calls : List (String × ℤ)) :
    ∀ doc : Doc, ((apply_creator_calls doc calls).creator,
      (apply_creator_calls doc calls).creator_confidence) =
      runCalls (doc.creator, doc.creator_confidence) calls := by
  induction calls with
  | nil => intro doc; rfl
  | cons p ps ih =>
    intro doc
    have h3 : ((set_creator doc p.1 p.2).creator,
        (set_creator doc p.1 p.2).creator_confidence) =
        gated (doc.creator, doc.creator_confidence) p := by
      by_cases h : p.2 ≥ doc.creator_confidence <;> simp [set_creator, gated, h]
    show ((apply_creator_calls (set_creator doc p.1 p.2) ps).creator, _) =
      runCalls (gated (doc.creator, doc.creator_confidence) p) ps
    rw [← h3]
    exact ih _

theorem apply_importance_pair (calls : List (ℚ × ℤ)) :
    ∀ doc : Doc, ((apply_importance_calls doc calls).importance,
      (apply_importance_calls doc calls).importance_confidence) =
      runCalls (doc.importance, doc.importance_confidence)
        (calls.map (fun p => (some p.1, p.2))) := by
  induction calls with
  | nil => intro doc; rfl
  | cons p ps ih =>
    intro doc
    have h3 : ((set_importance doc p.1 p.2).importance,
        (set_importance doc p.1 p.2).importance_confidence) =
        gated (doc.importance, doc.importance_confidence) (some p.1, p.2) := by
      by_cases h : p.2 ≥ doc.importance_confidence <;> simp [set_importance, gated, h]
    show ((apply_importance_calls (set_importance doc p.1 p.2) ps).importance, _) =
      runCalls (gated (doc.importance, doc.importance_confidence) (some p.1, p.2))
        (ps.map (fun p => (some p.1, p.2)))
    rw [← h3]
    exact ih _

theorem maxConf_map_some (calls : List (ℚ × ℤ)) :
    maxConf (calls.map (fun p => ((some p.1 : Option ℚ), p.2))) = maxConf calls := by
  simp [maxConf, List.foldl_map]

theorem lastAtMax_map_some (m : ℤ) (calls : List (ℚ × ℤ)) :
    lastAtMax m (calls.map (fun p => ((some p.1 : Option ℚ), p.2))) =
      Option.map some (lastAtMax m calls) := by
  rw [lastAtMax, lastAtMax, List.foldl_map]
  have h : ∀ (acc : Option ℚ),
      List.foldl (fun a (p : ℚ × ℤ) => if p.2 = m then some (some p.1) else a)
        (Option.map some acc) calls =
      Option.map some (List.foldl (fun a (p : ℚ × ℤ) => if p.2 = m then some p.1 else a)
        acc calls) := by
    induction calls with
    | nil => intro acc; rfl
    | cons p ps ih =>
      intro acc
      by_cases hp : p.2 = m
      · simp only [List.foldl_cons, if_pos hp]
        exact ih (some p.1)
      · simp only [List.foldl_cons, if_neg hp]
        exact ih acc
  exact h none

/-- Claim C4: for any non-empty sequence of calls to one scalar setter
(`set_title`, `set_summary`, `set_creator`, `set_importance`) with
non-negative confidences, starting from a fresh document (confidence 0),
the final stored confidence equals the maximum confidence supplied, and
the stored value is the one of the most recent call that supplied that
maximum (the `>=` update rule keeps the newer value on ties). -/
theorem scalar_setter_confidence_max :
    (∀ calls : List (String × ℤ), calls ≠ [] → (∀ p ∈ calls, 0 ≤ p.2) →
      (apply_title_calls freshDoc calls).title_confidence = maxConf calls ∧
      lastAtMax (maxConf calls) calls = some (apply_title_calls freshDoc calls).title) ∧
    (∀ calls : List (String × ℤ), calls ≠ [] → (∀ p ∈ calls, 0 ≤ p.2) →
      (apply_summary_calls freshDoc calls).summary_confidence = maxConf calls ∧
      lastAtMax (maxConf calls) calls = some (apply_summary_calls freshDoc calls).summary) ∧
    (∀ calls : List (String × ℤ), calls ≠ [] → (∀ p ∈ calls, 0 ≤ p.2) →
      (apply_creator_calls freshDoc calls).creator_confidence = maxConf calls ∧
      lastAtMax (maxConf calls) calls = some (apply_creator_calls freshDoc calls).creator) ∧
    (∀ calls : List (ℚ × ℤ), calls ≠ [] → (∀ p ∈ calls, 0 ≤ p.2) →
      (apply_importance_calls freshDoc calls).importance_confidence = maxConf calls ∧
      Option.map some (lastAtMax (maxConf calls) calls) =
        some (apply_importance_calls freshDoc calls).importance) := by
  refine ⟨?_, ?_, ?_, ?_⟩
  · intro calls hne hpos
    obtain ⟨hc, hv⟩ := runCalls_spec calls ("", 0) rfl hpos hne
    have hp := apply_title_pair calls freshDoc
    have hfst : (apply_title_calls freshDoc calls).title =
        (runCalls ("", 0) calls).1 := congrArg Prod.fst hp
    have hsnd : (apply_title_calls freshDoc calls).title_confidence =
        (runCalls ("", 0) calls).2 := congrArg Prod.snd hp
    refine ⟨hsnd.trans hc, ?_⟩
    rw [hfst]
    exact hv
  · intro calls hne hpos
    obtain ⟨hc, hv⟩ := runCalls_spec calls ("", 0) rfl hpos hne
    have hp := apply_summary_pair calls freshDoc
    have hfst : (apply_summary_calls freshDoc calls).summary =
        (runCalls ("", 0) calls).1 := congrArg Prod.fst hp
    have hsnd : (apply_summary_calls freshDoc calls).summary_confidence =
        (runCalls ("", 0) calls).2 := congrArg Prod.snd hp
    refine ⟨hsnd.trans hc, ?_⟩
    rw [hfst]
    exact hv
  · intro calls hne hpos
    obtain ⟨hc, hv⟩ := runCalls_spec calls ("", 0) rfl hpos hne
    have hp := apply_creator_pair calls freshDoc
    have hfst : (apply_creator_calls freshDoc calls).creator =
        (runCalls ("", 0) calls).1 := congrArg Prod.fst hp
    have hsnd : (apply_creator_calls freshDoc calls).creator_confidence =
        (runCalls ("", 0) calls).2 := congrArg Prod.snd hp
    refine ⟨hsnd.trans hc, ?_⟩
    rw [hfst]
    exact hv
  · intro calls hne hpos
    have hne' : calls.map (fun p => ((some p.1 : Option ℚ), p.2)) ≠ [] := by
      simp [hne]
    have hpos' : ∀ p ∈ calls.map (fun p => ((some p.1 : Option ℚ), p.2)), 0 ≤ p.2 := by
      intro p hp
      obtain ⟨q, hq, rfl⟩ := List.mem_map.1 hp
      exact hpos q hq
    obtain ⟨hc, hv⟩ := runCalls_spec (calls.map (fun p => ((some p.1 : Option ℚ), p.2)))
      ((none : Option ℚ), 0) rfl hpos' hne'
    have hp := apply_importance_pair calls freshDoc
    have hfst : (apply_importance_calls freshDoc calls).importance =
        (runCalls ((none : Option ℚ), 0) (calls.map (fun p => (some p.1, p.2)))).1 :=
      congrArg Prod.fst hp
    have hsnd : (apply_importance_calls freshDoc calls).importance_confidence =
        (runCalls ((none : Option ℚ), 0) (calls.map (fun p => (some p.1, p.2)))).2 :=
      congrArg Prod.snd hp
    rw [maxConf_map_some] at hc hv
    rw [lastAtMax_map_some] at hv
    refine ⟨hsnd.trans hc, ?_⟩
    rw [hfst]
    exact hv

/-- Witness for the scalar-setter confidence property at concrete call
sequences. -/
theorem scalar_setter_confidence_max_witness :
    ((apply_title_calls freshDoc [("a", 3), ("b", 5), ("c", 5), ("d", 2)]).title_confidence =
      maxConf [("a", 3), ("b", 5), ("c", 5), ("d", 2)] ∧
     lastAtMax (maxConf [("a", 3), ("b", 5), ("c", 5), ("d", 2)])
       [("a", 3), ("b", 5), ("c", 5), ("d", 2)] =
       some (apply_title_calls freshDoc [("a", 3), ("b", 5), ("c", 5), ("d", 2)]).title) ∧
    ((apply_summary_calls freshDoc [("s", 0)]).summary_confidence = maxConf [("s", 0)] ∧
     lastAtMax (maxConf [("s", 0)]) [("s", 0)] =
       some (apply_summary_calls freshDoc [("s", 0)]).summary) ∧
    ((apply_creator_calls freshDoc [("x", 1), ("y", 1)]).creator_confidence =
      maxConf [("x", 1), ("y", 1)] ∧
     lastAtMax (maxConf [("x", 1), ("y", 1)]) [("x", 1), ("y", 1)] =
       some (apply_creator_calls freshDoc [("x", 1), ("y", 1)]).creator) ∧
    ((apply_importance_calls freshDoc [((7 : ℚ), 4)]).importance_confidence =
      maxConf [((7 : ℚ), 4)] ∧
     Option.map some (lastAtMax (maxConf [((7 : ℚ), 4)]) [((7 : ℚ), 4)]) =
       some (apply_importance_calls freshDoc [((7 : ℚ), 4)]).importance) := by
  refine ⟨?_, ?_, ?_, ?_⟩
  · exact scalar_setter_confidence_max.1 _ (by decide) (by decide)
  · exact scalar_setter_confidence_max.2.1 _ (by decide) (by decide)
  · exact scalar_setter_confidence_max.2.2.1 _ (by decide) (by decide)
  · exact scalar_setter_confidence_max.2.2.2 _ (by simp) (by norm_num)

end PDFDoc

namespace FileCache

/-- Claim C7: with the cache enabled (and one file per key, i.e. unique
keys), `set` followed by `get` before the entry's `expires_at`
(`= set time + ttl`) returns the stored data and leaves the store
unchanged; a `get` at or after `expires_at` returns nothing and removes
the entry file; a `get` on a key never set returns nothing and changes
nothing. -/
theorem cache_roundtrip {α : Type} (cfg : CacheCfg) (st : Store α) (bucket key : String)
    (v : α) (tset tget : ℚ) (hen : cfg.enabled = true)
    (hnd : ((st : List ((String × String) × Entry α)).map Prod.fst).Nodup) :
    (tget < tset + cfg.ttl_seconds →
      cache_get cfg (cache_set cfg st bucket key v tset) bucket key tget =
        (some v, cache_set cfg st bucket key v tset)) ∧
    (tset + cfg.ttl_seconds ≤ tget →
      (cache_get cfg (cache_set cfg st bucket key v tset) bucket key tget).1 = none ∧
      alookup ((cache_get cfg (cache_set cfg st bucket key v tset) bucket key tget).2 :
        List ((String × String) × Entry α)) (bucket, key) = none) ∧
    (alookup (st : List ((String × String) × Entry α)) (bucket, key) = none →
      cache_get cfg st bucket key tget = (none, st)) := by
  have hset : cache_set cfg st bucket key v tset =
      aset st (bucket, key)
        { created_at := tset, expires_at := tset + cfg.ttl_seconds,
          mtime := tset, data := v } := by
    simp [cache_set, hen]
  have hlook : alookup (cache_set cfg st bucket key v tset :
      List ((String × String) × Entry α)) (bucket, key) =
      some { created_at := tset, expires_at := tset + cfg.ttl_seconds,
             mtime := tset, data := v } := by
    rw [hset]; exact alookup_aset_self _ _ _
  have hexp : (if (tset + cfg.ttl_seconds : ℚ) ≤ 0
      then tset + cfg.ttl_seconds else tset + cfg.ttl_seconds) = tset + cfg.ttl_seconds := by
    split_ifs <;> rfl
  refine ⟨?_, ?_, ?_⟩
  · intro hlt
    rw [cache_get, if_neg (by simp [hen]), hlook]
    simp only []
    rw [if_neg]
    simp only [not_le]
    split_ifs <;> exact hlt
  · intro hge
    constructor
    · rw [cache_get, if_neg (by simp [hen]), hlook]
      simp only []
      rw [if_pos]
      split_ifs <;> exact hge
    · rw [cache_get, if_neg (by simp [hen]), hlook]
      simp only []
      rw [if_pos]
      · rw [hset]
        exact alookup_aremove_self (nodup_keys_aset _ _ hnd)
      · split_ifs <;> exact hge
  · intro hnone
    rw [cache_get, if_neg (by simp [hen]), hnone]

/-- Witness for the cache round-trip at concrete inputs: ttl 10 seconds,
set at time 0, get at times 5 and 10. -/
theorem cache_roundtrip_witness :
    (cache_get { enabled := true, ttl_seconds := 10 }
        (cache_set { enabled := true, ttl_seconds := 10 } ([] : Store ℕ) "b" "k" 42 0)
        "b" "k" 5 =
      (some 42,
        cache_set { enabled := true, ttl_seconds := 10 } ([] : Store ℕ) "b" "k" 42 0)) ∧
    ((cache_get { enabled := true, ttl_seconds := 10 }
        (cache_set { enabled := true, ttl_seconds := 10 } ([] : Store ℕ) "b" "k" 42 0)
        "b" "k" 10).1 = none) ∧
    (cache_get { enabled := true, ttl_seconds := 10 } ([] : Store ℕ) "b" "k" 3 =
      (none, ([] : Store ℕ))) := by
  refine ⟨?_, ?_, ?_⟩
  · exact (cache_roundtrip { enabled := true, ttl_seconds := 10 } ([] : Store ℕ)
      "b" "k" 42 0 5 rfl (by simp)).1 (by norm_num)
  · exact ((cache_roundtrip { enabled := true, ttl_seconds := 10 } ([] : Store ℕ)
      "b" "k" 42 0 10 rfl (by simp)).2.1 (by norm_num)).1
  · exact (cache_roundtrip { enabled := true, ttl_seconds := 10 } ([] : Store ℕ)
      "b" "k" 42 0 3 rfl (by simp)).2.2 rfl

end FileCache

namespace PDFDoc

theorem nodup_keys_build_existing :
    ∀ (tags : List String) (cs : List ℤ) (m : List (String × ℤ)),
      (m.map Prod.fst).Nodup → ((build_existing_aux m tags cs).map Prod.fst).Nodup := by
  intro tags
  induction tags with
  | nil => intro cs m hm; exact hm
  | cons t ts ih =>
    intro cs m hm
    rw [build_existing_aux]
    by_cases ht : t = ""
    · simp only [ht, if_pos rfl]
      exact ih _ _ hm
    · simp only [if_neg ht]
      exact ih _ _ (nodup_keys_aset _ _ hm)

theorem nodup_keys_merge :
    ∀ (pairs : List (String × ℤ)) (m : List (String × ℤ)),
      (m.map Prod.fst).Nodup → ((merge_incoming m pairs).map Prod.fst).Nodup := by
  intro pairs
  induction pairs with
  | nil => intro m hm; exact hm
  | cons p ps ih =>
    intro m hm
    have hstep : merge_incoming m (p :: ps) = merge_incoming
        (if p.1 = "" then m
         else
           match alookup m p.1 with
           | none => aset m p.1 p.2
           | some ec => if p.2 ≥ ec then aset m p.1 (max ec p.2) else m) ps := rfl
    rw [hstep]
    apply ih
    by_cases hp : p.1 = ""
    · simp only [if_pos hp]; exact hm
    · simp only [if_neg hp]
      cases hl : alookup m p.1 with
      | none => exact nodup_keys_aset _ _ hm
      | some ec =>
        by_cases hge : p.2 ≥ ec
        · simp only [if_pos hge]
          exact nodup_keys_aset _ _ hm
        · simp only [if_neg hge]
          exact hm

theorem alookup_merge_mono :
    ∀ (pairs : List (String × ℤ)) (m : List (String × ℤ)) (k : String) (v : ℤ),
      alookup m k = some v →
      ∃ w, alookup (merge_incoming m pairs) k = some w ∧ v ≤ w := by
  intro pairs
  induction pairs with
  | nil => intro m k v h; exact ⟨v, h, le_refl v⟩
  | cons p ps ih =>
    intro m k v h
    have hstep : merge_incoming m (p :: ps) = merge_incoming
        (if p.1 = "" then m
         else
           match alookup m p.1 with
           | none => aset m p.1 p.2
           | some ec => if p.2 ≥ ec then aset m p.1 (max ec p.2) else m) ps := rfl
    rw [hstep]
    by_cases hp : p.1 = ""
    · simp only [if_pos hp]
      exact ih m k v h
    · simp only [if_neg hp]
      cases hl : alookup m p.1 with
      | none =>
        have hk : k ≠ p.1 := by
          intro he; rw [he, hl] at h; exact Option.noConfusion h
        have : alookup (aset m p.1 p.2) k = some v := by
          rw [alookup_aset_of_ne m p.2 hk]; exact h
        exact ih _ k v this
      | some ec =>
        by_cases hge : p.2 ≥ ec
        · simp only [if_pos hge]
          by_cases hk : k = p.1
          · have hv : v = ec := by
              rw [hk, hl] at h
              injection h with h
              exact h.symm
            obtain ⟨w, hw, hle⟩ := ih (aset m p.1 (max ec p.2)) p.1 (max ec p.2)
              (alookup_aset_self _ _ _)
            refine ⟨w, ?_, ?_⟩
            · rw [hk]; exact hw
            · exact le_trans (by rw [hv]; exact le_max_left _ _) hle
          · have : alookup (aset m p.1 (max ec p.2)) k = some v := by
              rw [alookup_aset_of_ne m _ hk]; exact h
            exact ih _ k v this
        · simp only [if_neg hge]
          exact ih m k v h

theorem alookup_merge_ge :
    ∀ (pairs : List (String × ℤ)) (m : List (String × ℤ)),
      ∀ p ∈ pairs, p.1 ≠ "" →
      ∃ w, alookup (merge_incoming m pairs) p.1 = some w ∧ p.2 ≤ w := by
  intro pairs
  induction pairs with
  | nil => intro m p hp; exact absurd hp (List.not_mem_nil p)
  | cons q ps ih =>
    intro m p hp hne
    have hstep : merge_incoming m (q :: ps) = merge_incoming
        (if q.1 = "" then m
         else
           match alookup m q.1 with
           | none => aset m q.1 q.2
           | some ec => if q.2 ≥ ec then aset m q.1 (max ec q.2) else m) ps := rfl
    rw [hstep]
    rcases List.mem_cons.1 hp with hpq | hps
    · subst hpq
      simp only [if_neg hne]
      cases hl : alookup m p.1 with
      | none =>
        obtain ⟨w, hw, hle⟩ := alookup_merge_mono ps (aset m p.1 p.2) p.1 p.2
          (alookup_aset_self _ _ _)
        exact ⟨w, hw, hle⟩
      | some ec =>
        by_cases hge : p.2 ≥ ec
        · simp only [if_pos hge]
          obtain ⟨w, hw, hle⟩ := alookup_merge_mono ps (aset m p.1 (max ec p.2)) p.1
            (max ec p.2) (alookup_aset_self _ _ _)
          exact ⟨w, hw, le_trans (le_max_right _ _) hle⟩
        · simp only [if_neg hge]
          obtain ⟨w, hw, hle⟩ := alookup_merge_mono ps m p.1 ec hl
          exact ⟨w, hw, le_trans (le_of_not_le hge) hle⟩
    · exact ih _ p hps hne

theorem merge_incoming_noop :
    ∀ (pairs : List (String × ℤ)) (m : List (String × ℤ)),
      (∀ p ∈ pairs, p.1 ≠ "" → ∃ w, alookup m p.1 = some w ∧ p.2 ≤ w) →
      merge_incoming m pairs = m := by
  intro pairs
  induction pairs with
  | nil => intro m _; rfl
  | cons p ps ih =>
    intro m h
    have hstep : merge_incoming m (p :: ps) = merge_incoming
        (if p.1 = "" then m
         else
           match alookup m p.1 with
           | none => aset m p.1 p.2
           | some ec => if p.2 ≥ ec then aset m p.1 (max ec p.2) else m) ps := rfl
    rw [hstep]
    by_cases hp : p.1 = ""
    · simp only [if_pos hp]
      exact ih m (fun q hq => h q (List.mem_cons_of_mem p hq))
    · simp only [if_neg hp]
      obtain ⟨w, hw, hle⟩ := h p (List.mem_cons_self p ps) hp
      rw [hw]
      by_cases hge : p.2 ≥ w
      · simp only [if_pos hge]
        have hvw : max w p.2 = w := max_eq_left hle
        rw [hvw, aset_eq_of_alookup hw]
        exact ih m (fun q hq => h q (List.mem_cons_of_mem p hq))
      · simp only [if_neg hge]
        exact ih m (fun q hq => h q (List.mem_cons_of_mem p hq))

theorem build_existing_rebuild :
    ∀ (m acc : List (String × ℤ)),
      (m.map Prod.fst).Nodup → "" ∉ m.map Prod.fst →
      (∀ k ∈ m.map Prod.fst, alookup acc k = none) →
      build_existing_aux acc (m.map Prod.fst) (m.map Prod.snd) = acc ++ m := by
  intro m
  induction m with
  | nil => intro acc _ _ _; simp [build_existing_aux]
  | cons kv rest ih =>
    intro acc hnd hne hl
    obtain ⟨k, v⟩ := kv
    simp only [List.map_cons, List.nodup_cons] at hnd
    simp only [List.map_cons, List.mem_cons] at hne
    have hkne : k ≠ "" := fun he => hne (Or.inl he.symm)
    have hlk : alookup acc k = none := hl k (by simp)
    rw [List.map_cons, List.map_cons, build_existing_aux]
    simp only [if_neg hkne, List.headD_cons, List.tail_cons, hlk, Option.getD_none,
      max_self]
    rw [aset_eq_append v hlk]
    have hstep := ih (acc ++ [(k, v)]) hnd.2 (fun he => hne (Or.inr he))
      (fun k' hk' => by
        rw [alookup_append_right _ (hl k' (by simp [hk']))]
        have hkk : k ≠ k' := fun he => hnd.1 (he ▸ hk')
        simp [alookup, hkk])
    rw [hstep, List.append_assoc]
    rfl

/-- Claim C6: `set_tags` is idempotent — applying the same equal-length
`(tag_list, confidence_list)` pair twice leaves the same `tags` and
`tags_confidence` as applying it once, because tags merge by string
identity keeping the maximum confidence seen per tag. -/
theorem set_tags_idempotent (doc : Doc) (tag_list : List String)
    (confidence_list : List ℤ) (doc' : Doc)
    (h : set_tags doc tag_list confidence_list = some doc') :
    set_tags doc' tag_list confidence_list = some doc' := by
  by_cases hl : tag_list.length ≠ confidence_list.length
  · simp [set_tags, hl] at h
  · simp only [set_tags, if_neg hl] at h ⊢
    injection h with h
    subst h
    have hnd : ((merge_incoming (build_existing_aux [] doc.tags doc.tags_confidence)
        (tag_list.zip confidence_list)).map Prod.fst).Nodup :=
      nodup_keys_merge _ _ (nodup_keys_build_existing _ _ [] (by simp))
    have hne : "" ∉ (merge_incoming (build_existing_aux [] doc.tags doc.tags_confidence)
        (tag_list.zip confidence_list)).map Prod.fst :=
      keys_merge_no_empty _ _ (keys_build_existing_no_empty _ _ [] (by simp))
    have hreb := build_existing_rebuild
      (merge_incoming (build_existing_aux [] doc.tags doc.tags_confidence)
        (tag_list.zip confidence_list)) [] hnd hne (fun k _ => rfl)
    simp only [List.nil_append] at hreb
    have hno := merge_incoming_noop (tag_list.zip confidence_list)
      (merge_incoming (build_existing_aux [] doc.tags doc.tags_confidence)
        (tag_list.zip confidence_list))
      (fun p hp hne' => alookup_merge_ge _ _ p hp hne')
    show some _ = _
    rw [show (({ doc with
        tags := (merge_incoming (build_existing_aux [] doc.tags doc.tags_confidence)
          (tag_list.zip confidence_list)).map Prod.fst,
        tags_confidence := (merge_incoming (build_existing_aux [] doc.tags
          doc.tags_confidence) (tag_list.zip confidence_list)).map Prod.snd } : Doc).tags)
      = (merge_incoming (build_existing_aux [] doc.tags doc.tags_confidence)
          (tag_list.zip confidence_list)).map Prod.fst from rfl]
    rw [show (({ doc with
        tags := (merge_incoming (build_existing_aux [] doc.tags doc.tags_confidence)
          (tag_list.zip confidence_list)).map Prod.fst,
        tags_confidence := (merge_incoming (build_existing_aux [] doc.tags
          doc.tags_confidence) (tag_list.zip confidence_list)).map
          Prod.snd } : Doc).tags_confidence)
      = (merge_incoming (build_existing_aux [] doc.tags doc.tags_confidence)
          (tag_list.zip confidence_list)).map Prod.snd from rfl]
    rw [hreb, hno]

/-- Witness for `set_tags` idempotence at a concrete input. -/
theorem set_tags_idempotent_witness :
    set_tags { freshDoc with tags := ["a", "b"], tags_confidence := [3, 5] }
      ["a", "b"] [3, 5] =
    some { freshDoc with tags := ["a", "b"], tags_confidence := [3, 5] } :=
  set_tags_idempotent freshDoc ["a", "b"] [3, 5]
    { freshDoc with tags := ["a", "b"], tags_confidence := [3, 5] } (by decide)

end PDFDoc

namespace AICommon

theorem firstIdxAux_mem (c : Char) :
    ∀ (cs : List Char) (n i : ℕ), firstIdxAux c cs n = some i →
      ∃ k, i = n + k ∧ cs[k]? = some c := by
  intro cs
  induction cs with
  | nil => intro n i h; exact absurd h (by simp [firstIdxAux])
  | cons x xs ih =>
    intro n i h
    by_cases hx : x = c
    · rw [firstIdxAux, if_pos hx] at h
      injection h with h
      exact ⟨0, h.symm, by simp [hx]⟩
    · rw [firstIdxAux, if_neg hx] at h
      obtain ⟨k, hk, hget⟩ := ih (n + 1) i h
      exact ⟨k + 1, by omega, by simpa using hget⟩

theorem firstIdxAux_of (c : Char) :
    ∀ (cs : List Char) (n k : ℕ), cs[k]? = some c →
      (∀ m < k, cs[m]? ≠ some c) → firstIdxAux c cs n = some (n + k) := by
  intro cs
  induction cs with
  | nil => intro n k hk _; simp at hk
  | cons x xs ih =>
    intro n k hk hmin
    cases k with
    | zero =>
      simp only [List.getElem?_cons_zero] at hk
      injection hk with hk
      rw [firstIdxAux, if_pos hk]
      simp
    | succ k =>
      have hx : x ≠ c := by
        intro he
        exact hmin 0 (Nat.succ_pos k) (by simp [he])
      simp only [List.getElem?_cons_succ] at hk
      have hmin' : ∀ m < k, xs[m]? ≠ some c := by
        intro m hm
        have := hmin (m + 1) (by omega)
        simpa using this
      rw [firstIdxAux, if_neg hx, ih (n + 1) k hk hmin']
      congr 1
      omega

theorem lastIdxAux_none (c : Char) :
    ∀ (cs : List Char) (n : ℕ), (∀ k : ℕ, cs[k]? ≠ some c) → lastIdxAux c cs n = none := by
  intro cs
  induction cs with
  | nil => intro n _; rfl
  | cons x xs ih =>
    intro n h
    have hx : x ≠ c := by
      intro he
      exact h 0 (by simp [he])
    have hxs : ∀ k : ℕ, xs[k]? ≠ some c := by
      intro k
      have := h (k + 1)
      simpa using this
    rw [lastIdxAux, ih (n + 1) hxs]
    simp [hx]

theorem lastIdxAux_mem (c : Char) :
    ∀ (cs : List Char) (n j : ℕ), lastIdxAux c cs n = some j →
      ∃ k, j = n + k ∧ cs[k]? = some c := by
  intro cs
  induction cs with
  | nil => intro n j h; exact absurd h (by simp [lastIdxAux])
  | cons x xs ih =>
    intro n j h
    rw [lastIdxAux] at h
    cases hrec : lastIdxAux c xs (n + 1) with
    | some j' =>
      rw [hrec] at h
      injection h with h
      obtain ⟨k, hk, hget⟩ := ih (n + 1) j' hrec
      exact ⟨k + 1, by omega, by simpa using hget⟩
    | none =>
      rw [hrec] at h
      by_cases hx : x = c
      · rw [if_pos hx] at h
        injection h with h
        exact ⟨0, h.symm, by simp [hx]⟩
      · rw [if_neg hx] at h
        exact absurd h (by simp)

theorem lastIdxAux_of (c : Char) :
    ∀ (cs : List Char) (n k : ℕ), cs[k]? = some c →
      (∀ m, k < m → cs[m]? ≠ some c) → lastIdxAux c cs n = some (n + k) := by
  intro cs
  induction cs with
  | nil => intro n k hk _; simp at hk
  | cons x xs ih =>
    intro n k hk hmax
    cases k with
    | zero =>
      simp only [List.getElem?_cons_zero] at hk
      injection hk with hk
      have hxs : ∀ m : ℕ, xs[m]? ≠ some c := by
        intro m
        have := hmax (m + 1) (Nat.succ_pos m)
        simpa using this
      rw [lastIdxAux, lastIdxAux_none c xs (n + 1) hxs]
      simp [hk]
    | succ k =>
      simp only [List.getElem?_cons_succ] at hk
      have hmax' : ∀ m, k < m → xs[m]? ≠ some c := by
        intro m hm
        have := hmax (m + 1) (by omega)
        simpa using this
      rw [lastIdxAux, ih (n + 1) k hk hmax']
      simp only []
      congr 1
      omega

/-- Claim C8: `json_guard` returns its input unchanged when it parses as
JSON; otherwise, when the first `&#123;` occurs before the last `&#125;`,
it returns exactly that bracketed substring; in every remaining case
(no such span, empty input, `None` input) it returns the empty-object
string — and, being a total function, it never raises. -/
theorem json_guard_claim (valid : String → Bool) (hve : valid "" = false) (s : String) :
    (valid s = true → json_guard valid (some s) = s) ∧
    (valid s = false → ∀ i j, s.data[i]? = some '\x7b' →
      (∀ m < i, s.data[m]? ≠ some '\x7b') →
      s.data[j]? = some '\x7d' →
      (∀ m, j < m → m < s.data.length → s.data[m]? ≠ some '\x7d') →
      i < j → json_guard valid (some s) = pySlice s i (j + 1)) ∧
    (valid s = false →
      (∀ i, i < s.data.length → ∀ j, j < s.data.length →
        s.data[i]? = some '\x7b' → s.data[j]? = some '\x7d' → ¬ i < j) →
      json_guard valid (some s) = "\x7b\x7d") ∧
    json_guard valid none = "\x7b\x7d" := by
  refine ⟨?_, ?_, ?_, rfl⟩
  · intro hv
    have hs : s ≠ "" := by
      intro he
      rw [he, hve] at hv
      exact Bool.noConfusion hv
    rw [json_guard, if_neg hs, if_pos hv]
  · intro hv i j hi hmini hj hmaxj hij
    have hs : s ≠ "" := by
      intro he
      subst he
      have : ("" : String).data = [] := rfl
      rw [this] at hi
      simp at hi
    have hmaxj' : ∀ m, j < m → s.data[m]? ≠ some '\x7d' := by
      intro m hm
      by_cases hlen : m < s.data.length
      · exact hmaxj m hm hlen
      · rw [List.getElem?_eq_none (by omega)]
        simp
    have hf : str_find s '\x7b' = some i := by
      have := firstIdxAux_of '\x7b' s.data 0 i hi hmini
      simpa [str_find] using this
    have hg : str_rfind s '\x7d' = some j := by
      have := lastIdxAux_of '\x7d' s.data 0 j hj hmaxj'
      simpa [str_rfind] using this
    rw [json_guard, if_neg hs, if_neg (by simp [hv]), hf, hg]
    simp only []
    rw [if_pos hij]
  · intro hv hno
    by_cases hs : s = ""
    · rw [json_guard, if_pos hs]
    · rw [json_guard, if_neg hs, if_neg (by simp [hv])]
      cases hf : str_find s '\x7b' with
      | none => rfl
      | some i =>
        cases hg : str_rfind s '\x7d' with
        | none => rfl
        | some j =>
          obtain ⟨ki, hki, hgi⟩ := firstIdxAux_mem '\x7b' s.data 0 i hf
          obtain ⟨kj, hkj, hgj⟩ := lastIdxAux_mem '\x7d' s.data 0 j hg
          have hii : i = ki := by omega
          have hjj : j = kj := by omega
          subst hii hjj
          have hilen : i < s.data.length := by
            by_contra hc
            rw [List.getElem?_eq_none (by omega)] at hgi
            exact Option.noConfusion hgi
          have hjlen : j < s.data.length := by
            by_contra hc
            rw [List.getElem?_eq_none (by omega)] at hgj
            exact Option.noConfusion hgj
          simp only []
          rw [if_neg (hno i hilen j hjlen hgi hgj)]

end AICommon

namespace AICommon

/-- Witness for the `json_guard` claim: a validity predicate accepting
exactly `"null"`, evaluated on a valid input, an input with a bracketed
span, an input without one, and a `None` input. -/
theorem json_guard_claim_witness :
    json_guard (fun t => t == "null") (some "null") = "null" ∧
    json_guard (fun t => t == "null") (some "x\x7ba\x7dy") = pySlice "x\x7ba\x7dy" 1 4 ∧
    json_guard (fun t => t == "null") (some "abc") = "\x7b\x7d" ∧
    json_guard (fun t => t == "null") none = "\x7b\x7d" := by
  refine ⟨?_, ?_, ?_, ?_⟩
  · exact (json_guard_claim (fun t => t == "null") rfl "null").1 (by decide)
  · refine (json_guard_claim (fun t => t == "null") rfl "x\x7ba\x7dy").2.1
      (by decide) 1 3 (by decide) ?_ (by decide) ?_ (by decide)
    · intro m hm
      interval_cases m
      decide
    · intro m h3 hlen
      have hL : ("x\x7ba\x7dy").data.length = 5 := rfl
      rw [hL] at hlen
      have hm : m = 4 := by omega
      subst hm
      decide
  · refine (json_guard_claim (fun t => t == "null") rfl "abc").2.2.1 (by decide) ?_
    intro i hi j hj hgi
    exfalso
    have hL : ("abc").data.length = 3 := rfl
    rw [hL] at hi
    interval_cases i <;> simp_all
  · exact (json_guard_claim (fun t => t == "null") rfl "s").2.2.2

end AICommon

namespace AICommon

theorem pyRound_nearest (x : ℚ) : |(pyRound x : ℚ) - x| ≤ 1 / 2 := by
  have hf : (⌊x⌋ : ℚ) ≤ x := Int.floor_le x
  have hf2 : x < ⌊x⌋ + 1 := Int.lt_floor_add_one x
  rw [pyRound]
  split_ifs with h1 h2 h3 <;> rw [abs_le] <;> constructor <;> push_cast <;> linarith

theorem clamp_conf_range (q : ℚ) : 0 ≤ clamp_conf q ∧ clamp_conf q ≤ 10 :=
  ⟨le_max_left 0 _, max_le (by norm_num) (min_le_left _ _)⟩

theorem mem_conf_vals_of_entry {obj : List (String × JVal)} {k : String} {q : ℚ}
    (hmem : (k, JVal.num q) ∈ obj) (hconf : py_endswith k "_confidence" = true) :
    q ∈ conf_vals obj := by
  apply List.mem_append_left
  exact List.mem_filterMap.2 ⟨(k, JVal.num q), hmem, by simp [hconf]⟩

theorem mem_conf_vals_of_tags {obj : List (String × JVal)} {xs : List JVal} {q : ℚ}
    (hl : alookup obj "tags_confidence" = some (JVal.arr xs))
    (hmem : JVal.num q ∈ xs) : q ∈ conf_vals obj := by
  apply List.mem_append_right
  rw [hl]
  exact List.mem_filterMap.2 ⟨JVal.num q, hmem, rfl⟩

theorem alookup_of_mem_nodup {κ₀ β₀ : Type} [DecidableEq κ₀] :
    ∀ {m : List (κ₀ × β₀)} {k : κ₀} {v : β₀},
      (m.map Prod.fst).Nodup → (k, v) ∈ m → alookup m k = some v := by
  intro m
  induction m with
  | nil => intro k v _ h; exact absurd h (List.not_mem_nil _)
  | cons hd tl ih =>
    intro k v hnd hmem
    obtain ⟨k1, v1⟩ := hd
    simp only [List.map_cons, List.nodup_cons] at hnd
    rcases List.mem_cons.1 hmem with he | hmem'
    · injection he with he1 he2
      subst he1
      subst he2
      simp [alookup]
    · have hk : k1 ≠ k := by
        intro he
        subst he
        exact hnd.1 (List.mem_map.2 ⟨(k1, v), hmem', rfl⟩)
      rw [alookup, if_neg hk]
      exact ih hnd.2 hmem'

theorem foldl_max_le_of_all {vs : List ℚ} {v c : ℚ} (hv : v ≤ c)
    (h : ∀ x ∈ vs, x ≤ c) : vs.foldl max v ≤ c := by
  induction vs generalizing v with
  | nil => exact hv
  | cons w ws ih =>
    rw [List.foldl_cons]
    exact ih (max_le hv (h w (by simp))) (fun x hx => h x (by simp [hx]))

theorem le_foldl_max_init (vs : List ℚ) (v : ℚ) : v ≤ vs.foldl max v := by
  induction vs generalizing v with
  | nil => exact le_refl v
  | cons w ws ih =>
    rw [List.foldl_cons]
    exact le_trans (le_max_left v w) (ih (max v w))

theorem le_foldl_max_of_mem {vs : List ℚ} {a : ℚ} (h : a ∈ vs) (v : ℚ) :
    a ≤ vs.foldl max v := by
  induction vs generalizing v with
  | nil => exact absurd h (List.not_mem_nil a)
  | cons w ws ih =>
    rw [List.foldl_cons]
    rcases List.mem_cons.1 h with he | hm
    · subst he
      exact le_trans (le_max_right v a) (le_foldl_max_init ws (max v a))
    · exact ih hm (max v w)

theorem map_scale_num_id {xs : List JVal} (h : ∀ q : ℚ, JVal.num q ∉ xs) :
    xs.map scale_num = xs := by
  induction xs with
  | nil => rfl
  | cons x rest ih =>
    rw [List.map_cons]
    have hx : scale_num x = x := by
      cases x with
      | num q => exact absurd (by simp) (h q)
      | str s => rfl
      | arr l => rfl
    rw [hx, ih (fun q hq => h q (List.mem_cons_of_mem x hq))]

/-- Claim C10: on a dict (unique keys, as Python guarantees) whose
numeric `*_confidence` values and numeric `tags_confidence` entries are
all `<= 1.0`, `normalize_confidence_numbers` replaces every such value by
an integer in `[0, 10]` — the value scaled by 10 and rounded to nearest
(`pyRound` is a nearest rounding: its distance to the scaled value is at
most 1/2) then clamped — while keys, positions and all non-confidence
fields are unchanged; if some confidence value exceeds 1.0 the dict is
returned unchanged. -/
theorem normalize_confidence_claim (obj : List (String × JVal))
    (hnd : (obj.map Prod.fst).Nodup) :
    ((∀ v ∈ conf_vals obj, v ≤ 1) →
      (normalize_confidence_numbers obj).length = obj.length ∧
      (∀ i : ℕ, ∀ k q, obj[i]? = some (k, JVal.num q) →
        py_endswith k "_confidence" = true →
        (normalize_confidence_numbers obj)[i]? =
          some (k, JVal.num ((max 0 (min 10 (pyRound (q * 10))) : ℤ))) ∧
        0 ≤ clamp_conf q ∧ clamp_conf q ≤ 10) ∧
      (∀ i : ℕ, ∀ xs, obj[i]? = some ("tags_confidence", JVal.arr xs) →
        (normalize_confidence_numbers obj)[i]? =
          some ("tags_confidence", JVal.arr (xs.map scale_num)) ∧
        ∀ q : ℚ, JVal.num q ∈ xs →
          JVal.num (clamp_conf q) ∈ xs.map scale_num ∧
          0 ≤ clamp_conf q ∧ clamp_conf q ≤ 10) ∧
      (∀ i : ℕ, ∀ kv, obj[i]? = some kv →
        py_endswith kv.1 "_confidence" = false →
        (normalize_confidence_numbers obj)[i]? = some kv)) ∧
    ((∃ v ∈ conf_vals obj, 1 < v) → normalize_confidence_numbers obj = obj) ∧
    (∀ x : ℚ, |(pyRound x : ℚ) - x| ≤ 1 / 2) := by
  refine ⟨?_, ?_, pyRound_nearest⟩
  · intro hall
    cases hv : conf_vals obj with
    | nil =>
      have hid : normalize_confidence_numbers obj = obj := by
        rw [normalize_confidence_numbers, hv]
      refine ⟨by rw [hid], ?_, ?_, ?_⟩
      · intro i k q hget hconf
        have : q ∈ conf_vals obj :=
          mem_conf_vals_of_entry (List.getElem?_mem hget) hconf
        rw [hv] at this
        exact absurd this (List.not_mem_nil q)
      · intro i xs hget
        have hmem := List.getElem?_mem hget
        have hlook : alookup obj "tags_confidence" = some (JVal.arr xs) :=
          alookup_of_mem_nodup hnd hmem
        have hnonum : ∀ q : ℚ, JVal.num q ∉ xs := by
          intro q hq
          have : q ∈ conf_vals obj := mem_conf_vals_of_tags hlook hq
          rw [hv] at this
          exact absurd this (List.not_mem_nil q)
        refine ⟨?_, ?_⟩
        · rw [hid, map_scale_num_id hnonum]
          exact hget
        · intro q hq
          exact absurd hq (hnonum q)
      · intro i kv hget _
        rw [hid]
        exact hget
    | cons v vs =>
      have hle : vs.foldl max v ≤ 1 := by
        apply foldl_max_le_of_all
        · exact hall v (by rw [hv]; simp)
        · intro x hx
          exact hall x (by rw [hv]; simp [hx])
      have hmapped : normalize_confidence_numbers obj = obj.map scale_entry := by
        rw [normalize_confidence_numbers, hv]
        show (if List.foldl max v vs ≤ 1 then obj.map scale_entry else obj) =
          obj.map scale_entry
        rw [if_pos hle]
      refine ⟨by rw [hmapped]; exact List.length_map _ _, ?_, ?_, ?_⟩
      · intro i k q hget hconf
        refine ⟨?_, clamp_conf_range q⟩
        rw [hmapped, List.getElem?_map, hget]
        simp only [Option.map_some']
        rw [scale_entry]
        simp only [if_pos hconf]
        rfl
      · intro i xs hget
        have hconf : py_endswith "tags_confidence" "_confidence" = true := by decide
        refine ⟨?_, ?_⟩
        · rw [hmapped, List.getElem?_map, hget]
          simp only [Option.map_some']
          rw [scale_entry]
          simp only [if_pos hconf, if_pos rfl, if_true]
        · intro q hq
          exact ⟨List.mem_map.2 ⟨JVal.num q, hq, rfl⟩, clamp_conf_range q⟩
      · intro i kv hget hconf
        rw [hmapped, List.getElem?_map, hget]
        simp only [Option.map_some']
        rw [scale_entry, if_neg (by rw [hconf]; exact Bool.false_ne_true)]
  · intro hex
    obtain ⟨v0, hmem, hgt⟩ := hex
    cases hv : conf_vals obj with
    | nil => rw [normalize_confidence_numbers, hv]
    | cons v vs =>
      rw [hv] at hmem
      have hge : v0 ≤ vs.foldl max v := by
        rcases List.mem_cons.1 hmem with he | hm
        · subst he
          exact le_foldl_max_init vs v0
        · exact le_foldl_max_of_mem hm v
      rw [normalize_confidence_numbers, hv]
      show (if List.foldl max v vs ≤ 1 then obj.map scale_entry else obj) = obj
      rw [if_neg (by intro hc; linarith)]

end AICommon

namespace AICommon

/-- Witness for the confidence-normalization claim on a concrete dict
with confidences `1` and `0` (all `<= 1`), and on a dict with a
confidence `2` (left unchanged). -/
theorem normalize_confidence_claim_witness :
    (normalize_confidence_numbers
        [("title", JVal.str "t"), ("title_confidence", JVal.num 1),
         ("tags_confidence", JVal.arr [JVal.num 0, JVal.str "x"])])[1]? =
      some ("title_confidence", JVal.num ((max 0 (min 10 (pyRound ((1 : ℚ) * 10))) : ℤ))) ∧
    (normalize_confidence_numbers
        [("title", JVal.str "t"), ("title_confidence", JVal.num 1),
         ("tags_confidence", JVal.arr [JVal.num 0, JVal.str "x"])])[0]? =
      some ("title", JVal.str "t") ∧
    normalize_confidence_numbers [("x_confidence", JVal.num 2)] =
      [("x_confidence", JVal.num 2)] := by
  refine ⟨?_, ?_, ?_⟩
  · exact (((normalize_confidence_claim
      [("title", JVal.str "t"), ("title_confidence", JVal.num 1),
       ("tags_confidence", JVal.arr [JVal.num 0, JVal.str "x"])]
      (by decide)).1 (by decide)).2.1 1 "title_confidence" 1 rfl (by decide)).1
  · exact ((normalize_confidence_claim
      [("title", JVal.str "t"), ("title_confidence", JVal.num 1),
       ("tags_confidence", JVal.arr [JVal.num 0, JVal.str "x"])]
      (by decide)).1 (by decide)).2.2.2 0 ("title", JVal.str "t") rfl (by decide)
  · exact (normalize_confidence_claim [("x_confidence", JVal.num 2)]
      (by decide)).2.1 ⟨2, by decide, by norm_num⟩

end AICommon

namespace Combined

theorem est_cand1 : est_tokens cfg1 doc1 (CEntry.regionC cand1) = 1615 := by
  unfold est_tokens
  rw [if_neg (by decide)]
  simp only [cand1]
  norm_num [pyInt, cfg1, min_eq_right (by norm_num : (1536 : ℚ)/2000 ≤ 1)]
  rfl

theorem analyze_combined_cfg1_doc1 : analyze_combined cfg1 doc1 = some
    { parts := [TPart.intro doc1.intro, TPart.pageImage 1 "IMG"],
      intro_tokens := 10, used_tokens := 10, image_tokens_spent := 765,
      remaining := 0, selected_pages := [], selected_images := [1],
      skipped_due_budget := 1 } := by
  have e1 : AICommon.tokenize_text doc1.intro = 10 := rfl
  have e2 : build_page_text_map doc1.text_elements = [] := rfl
  have e3 : text_parts_init [] = [] := rfl
  have e4 : trim_text cfg1.token_limit 10 [] = [] := rfl
  have e5 : make_candidates cfg1.page_group_threshold doc1.image_candidates =
      [CEntry.regionC cand1] := rfl
  have e6 : order_candidates cfg1 [CEntry.regionC cand1] = [CEntry.regionC cand1] := rfl
  have e7 : (cfg1.token_limit - ((10 : ℕ) : ℤ)).toNat = 500 := rfl
  have e8 : greedy_select cfg1 doc1 [CEntry.regionC cand1] 500 =
      ⟨[], [], 500, 0, 1⟩ := by
    simp only [greedy_select, List.foldl_cons, List.foldl_nil, greedy_step, est_cand1]
    norm_num
  have e9 : adaptive_fallback cfg1 doc1 [CEntry.regionC cand1] ⟨[], [], 500, 0, 1⟩ =
      (⟨[], [1], 0, 765, 1⟩, [((false, 1), 1024)]) := rfl
  have e10 : assemble cfg1 doc1 [] [] [] [1] [((false, 1), 1024)] =
      [TPart.intro doc1.intro, TPart.pageImage 1 "IMG"] := rfl
  have hnotif : ¬ (((10 : ℕ) : ℤ) > cfg1.token_limit) := by decide
  simp only [analyze_combined, e1, e2, e3, e4, List.map_nil, List.sum_nil,
    Nat.add_zero, e5, e6, e7, e8, e9, e10, if_neg hnotif]

/-- Claim C1: the budget contract is violated by the adaptive fallback —
contrary to the claim (and to the source comment "Compute minimal max_px
so that tiles fit into `afford`"), the fallback charges
`85 + 170 * ceil(sqrt(target_tiles))^2` tokens, which exceeds the
remaining budget whenever `target_tiles` is not a perfect square.  At
`token_limit = 510` with a 10-token intro, no page text and one
2000×2000-pt region candidate (estimated 1615 tokens, so the greedy pass
admits nothing and 500 tokens remain), the fallback admits the candidate
at 765 tokens: the request is assembled and sent (no abort — the intro
alone, 10 tokens, is far under the limit) with an estimated total cost of
775 > 510. -/
theorem adaptive_fallback_exceeds_budget :
    (analyze_combined cfg1 doc1).map
        (fun r => (r.intro_tokens, r.used_tokens + r.image_tokens_spent)) =
      some (10, 775) ∧
    ((10 : ℤ) ≤ cfg1.token_limit ∧ cfg1.token_limit < 775) := by
  refine ⟨?_, by constructor <;> decide⟩
  rw [analyze_combined_cfg1_doc1]
  rfl

end Combined

namespace Combined

theorem pairwise_of_forall_mem {α : Type} {R : α → α → Prop} :
    ∀ {l : List α}, (∀ x ∈ l, ∀ y ∈ l, R x y) → l.Pairwise R := by
  intro l
  induction l with
  | nil => intro _; exact List.Pairwise.nil
  | cons x xs ih =>
    intro h
    refine List.Pairwise.cons ?_ (ih ?_)
    · intro y hy
      exact h x (by simp) y (by simp [hy])
    · intro a ha b hb
      exact h a (by simp [ha]) b (by simp [hb])

theorem partLe_of {a b : TPart} {pa pb : ℤ} (ha : partPage a = some pa)
    (hb : partPage b = some pb)
    (h : pa < pb ∨ (pa = pb ∧ partRank a ≤ partRank b)) : partLe a b := by
  unfold partLe
  rw [ha, hb]
  exact h

theorem text_chunk_mem {tp : List (ℤ × String)} {p : ℤ} {x : TPart}
    (h : x ∈ text_chunk tp p) : ∃ t, x = TPart.pageText p t := by
  rw [text_chunk] at h
  split at h
  · split at h
    · rw [List.mem_singleton] at h
      exact ⟨_, h⟩
    · exact absurd h (List.not_mem_nil x)
  · exact absurd h (List.not_mem_nil x)

theorem image_chunk_mem {cfg : Cfg} {doc : DocIn} {selP selI : List ℤ}
    {ov : List (OvKey × ℤ)} {p : ℤ} {x : TPart}
    (h : x ∈ image_chunk cfg doc selP selI ov p) : ∃ u, x = TPart.pageImage p u := by
  rw [image_chunk] at h
  by_cases hp : p ∈ selP
  · simp only [if_pos hp] at h
    split at h
    · rw [List.mem_singleton] at h
      exact ⟨_, h⟩
    · exact absurd h (List.not_mem_nil x)
  · simp only [if_neg hp] at h
    rw [List.mem_flatMap] at h
    obtain ⟨m, _, hx⟩ := h
    split at hx
    · rw [List.mem_singleton] at hx
      exact ⟨_, hx⟩
    · exact absurd hx (List.not_mem_nil x)

theorem page_parts_page {cfg : Cfg} {doc : DocIn} {tp : List (ℤ × String)}
    {selP selI : List ℤ} {ov : List (OvKey × ℤ)} {p : ℤ} {x : TPart}
    (h : x ∈ page_parts cfg doc tp selP selI ov p) : partPage x = some p := by
  rw [page_parts, List.mem_append] at h
  rcases h with h | h
  · obtain ⟨t, rfl⟩ := text_chunk_mem h
    rfl
  · obtain ⟨u, rfl⟩ := image_chunk_mem h
    rfl

theorem page_parts_pairwise (cfg : Cfg) (doc : DocIn) (tp : List (ℤ × String))
    (selP selI : List ℤ) (ov : List (OvKey × ℤ)) (p : ℤ) :
    (page_parts cfg doc tp selP selI ov p).Pairwise partLe := by
  rw [page_parts, List.pairwise_append]
  refine ⟨?_, ?_, ?_⟩
  · rw [text_chunk]
    split
    · split <;> simp
    · simp
  · apply pairwise_of_forall_mem
    intro x hx y hy
    obtain ⟨u, rfl⟩ := image_chunk_mem hx
    obtain ⟨w, rfl⟩ := image_chunk_mem hy
    exact partLe_of rfl rfl (Or.inr ⟨rfl, le_refl _⟩)
  · intro x hx y hy
    obtain ⟨t, rfl⟩ := text_chunk_mem hx
    obtain ⟨u, rfl⟩ := image_chunk_mem hy
    exact partLe_of rfl rfl (Or.inr ⟨rfl, by norm_num [partRank]⟩)

theorem pages_in_doc_sorted (ptm : List (ℤ × String)) (cands : List Cand) :
    (pages_in_doc ptm cands).Pairwise (fun a b : ℤ => a < b) := by
  have hs : (pages_in_doc ptm cands).Pairwise (fun a b : ℤ => a ≤ b) := by
    rw [pages_in_doc]
    exact List.sorted_insertionSort _ _
  have hn : (pages_in_doc ptm cands).Nodup := by
    rw [pages_in_doc]
    exact ((List.perm_insertionSort _ _).nodup_iff).2 (List.nodup_dedup _)
  exact (hs.and hn).imp (fun h => lt_of_le_of_ne h.1 h.2)

/-- Claim C2: whenever `analyze_combined` assembles a request (no
intro-abort), the parts sequence starts with the single intro block, and
every other part carries a page such that pages appear in ascending order
and, within one page, the text block (rank 0) never follows an image
(rank 1) — i.e. a page's admitted images come after its text block and
before anything of a later page. -/
theorem combined_parts_ordering (cfg : Cfg) (doc : DocIn) (r : Result)
    (h : analyze_combined cfg doc = some r) :
    ∃ rest, r.parts = TPart.intro doc.intro :: rest ∧
      (∀ x ∈ rest, partPage x ≠ none) ∧ rest.Pairwise partLe := by
  simp only [analyze_combined] at h
  split_ifs at h
  injection h with h
  subst h
  refine ⟨_, rfl, ?_, ?_⟩
  · intro x hx
    rw [List.mem_flatMap] at hx
    obtain ⟨p, _, hx⟩ := hx
    rw [page_parts_page hx]
    simp
  · apply List.pairwise_flatMap.2
    refine ⟨fun p _ => page_parts_pairwise _ _ _ _ _ _ p, ?_⟩
    refine (pages_in_doc_sorted _ _).imp ?_
    intro p q hpq x hx y hy
    exact partLe_of (page_parts_page hx) (page_parts_page hy) (Or.inl hpq)

/-- Witness for the ordering contract at a concrete two-page document
with text and one selected region per page. -/
theorem combined_parts_ordering_witness :
    ∃ rest, ((analyze_combined cfg2 doc2).iget).parts =
        TPart.intro doc2.intro :: rest ∧
      (∀ x ∈ rest, partPage x ≠ none) ∧ rest.Pairwise partLe :=
  combined_parts_ordering cfg2 doc2 ((analyze_combined cfg2 doc2).iget) rfl

end Combined
